import Mathlib

/-!
Verification of the MSM engine core (51x5 FMA field kernel, batch-affine curve
layer, Pippenger bucket pipeline) against its specification.

The development shallowly embeds the relevant source functions at the value
level: field elements become natural numbers or elements of an abstract field,
limb vectors become lists of integers, IEEE-754 doubles (which the FMA kernel
uses as exact integer carriers) become rationals together with an explicit
round-to-nearest-even operation, and the in-place batch operations on the
point arena become list transformations.

Functions of the repository that are referenced by the embedded code but whose
source is not part of the snapshot (`extractBitSlice`, `decompose`, the curve
formulas of `curve-affine`, `batchInverse`) are modelled from the spec and
marked as such in their doc comments.
-/

/-! ## Scalar windowing with signed slices

Embeds the slicing loop of `msm` (main MSM implementation):
for each window `k`, `l = extractBitSlice(scalar, k*c, c) + carry`;
if `l > L` then `l := 2L - l` and `carry := 1`, else `carry := 0`;
the stored 32-bit word is `l | (carry << 31)`. -/

/-- Modelled from the spec: `extractBitSlice(s, offset, width)` returns the
unsigned `width`-bit window starting at bit `offset` of the little-endian bit
string of `s`; out-of-range bits are 0. (The implementation lives in
`scalar-glv.js`, which is not part of the snapshot.) -/
def extractBitSlice (s offset width : ℕ) : ℕ := s / 2 ^ offset % 2 ^ width

/-- One step of the signed-window recoding: given window index `k` and the
incoming carry, returns the stored 32-bit word `l ||| (carry <<< 31)` together
with the outgoing carry. Mirrors the body of the `for (k, carry)` loop in
`msm`. -/
def sliceStep (c s k carry : ℕ) : ℕ × ℕ :=
  let L := 2 ^ (c - 1)
  let l := extractBitSlice s (k * c) c + carry
  if l > L then (2 * L - l ||| 1 <<< 31, 1) else (l, 0)

/-- The list of stored slice words for `count` windows starting at window `k`,
threading the carry through. -/
def sliceWindowsAux (c s : ℕ) : ℕ → ℕ → ℕ → List ℕ
  | 0, _, _ => []
  | count + 1, k, carry =>
    let (w, carry') := sliceStep c s k carry
    w :: sliceWindowsAux c s count (k + 1) carry'

/-- All `K` stored slice words of a scalar `s`, as written to
`scalarSlices[k][i]` by the slicing loop of `msm`. -/
def sliceWindows (c K s : ℕ) : List ℕ := sliceWindowsAux c s K 0 0

/-- The bucket label encoded in a stored slice word: its low 31 bits
(`l &= 0x7f_ff_ff_ff` in `sortPoints`). -/
def sliceLabel (w : ℕ) : ℕ := w % 2 ^ 31

/-- The carry/sign bit of a stored slice word (`l >>> 31` in `sortPoints`). -/
def sliceCarry (w : ℕ) : ℕ := w / 2 ^ 31

theorem extractBitSlice_lt (s offset width : ℕ) :
    extractBitSlice s offset width < 2 ^ width :=
  Nat.mod_lt _ (Nat.pos_pow_of_pos _ (by norm_num))

theorem lor_two_pow_eq_add {n l : ℕ} (hl : l < 2 ^ n) :
    l ||| 2 ^ n = l + 2 ^ n := by
  apply Nat.eq_of_testBit_eq
  intro i
  rw [Nat.testBit_lor]
  rcases lt_trichotomy i n with hi | rfl | hi
  · rw [Nat.testBit_two_pow_of_ne (by omega), Bool.or_false,
      Nat.testBit_to_div_mod, Nat.testBit_to_div_mod]
    have he : (2 : ℕ) ^ n = 2 ^ i * 2 ^ (n - i) := by
      rw [← pow_add]; congr 1; omega
    have hd : (l + 2 ^ n) / 2 ^ i = l / 2 ^ i + 2 ^ (n - i) := by
      rw [he, Nat.add_mul_div_left _ _ (Nat.pos_pow_of_pos _ (by norm_num))]
    have hev : 2 ^ (n - i) % 2 = 0 := by
      have hni : n - i = (n - i - 1) + 1 := by omega
      rw [hni, pow_succ, Nat.mul_mod_left]
    have hmod : (l + 2 ^ n) / 2 ^ i % 2 = l / 2 ^ i % 2 := by
      rw [hd]; omega
    rw [hmod]
  · rw [Nat.testBit_two_pow_self, Bool.or_true, Nat.testBit_to_div_mod]
    have hdiv : (l + 2 ^ i) / 2 ^ i = 1 := by
      rw [Nat.add_div_right _ (Nat.pos_pow_of_pos _ (by norm_num)),
        Nat.div_eq_of_lt hl]
    rw [hdiv]
    norm_num
  · have h1 : l.testBit i = false :=
      Nat.testBit_eq_false_of_lt
        (lt_of_lt_of_le hl (Nat.pow_le_pow_right (by norm_num) (le_of_lt hi)))
    have h2 : (2 ^ n).testBit i = false := Nat.testBit_two_pow_of_ne (by omega)
    have h3 : (l + 2 ^ n).testBit i = false := by
      apply Nat.testBit_eq_false_of_lt
      calc l + 2 ^ n < 2 ^ n + 2 ^ n := by omega
        _ = 2 ^ (n + 1) := by ring
        _ ≤ 2 ^ i := Nat.pow_le_pow_right (by norm_num) hi
    rw [h1, h2, h3, Bool.or_false]

/-- A stored slice word decomposes as `label + carry * 2^31`, and its label is
bounded by `L = 2^(c-1)` while the carry is a bit. -/
theorem sliceStep_spec {c : ℕ} (hc1 : 1 ≤ c) (hc2 : c ≤ 31) (s k carry : ℕ) :
    let w := (sliceStep c s k carry).1
    let carry' := (sliceStep c s k carry).2
    sliceLabel w ≤ 2 ^ (c - 1) ∧ sliceCarry w = carry' ∧ carry' ≤ 1 ∧
      w = sliceLabel w + carry' * 2 ^ 31 := by
  have hL31 : 2 ^ (c - 1) < 2 ^ 31 :=
    Nat.pow_lt_pow_right (by norm_num) (by omega)
  have hl := extractBitSlice_lt s (k * c) c
  simp only [sliceStep]
  split
  · rename_i hgt
    set m := 2 * 2 ^ (c - 1) - (extractBitSlice s (k * c) c + carry) with hm
    have hmL : m ≤ 2 ^ (c - 1) := by omega
    have hm31 : m < 2 ^ 31 := by omega
    have hw : m ||| 1 <<< 31 = m + 2 ^ 31 := by
      rw [Nat.one_shiftLeft, lor_two_pow_eq_add hm31]
    have hlab : sliceLabel (m ||| 1 <<< 31) = m := by
      rw [sliceLabel, hw, Nat.add_mod_right, Nat.mod_eq_of_lt hm31]
    refine ⟨?_, ?_, le_refl _, ?_⟩
    · rw [hlab]; exact hmL
    · rw [sliceCarry, hw,
        Nat.add_div_right _ (Nat.pos_pow_of_pos _ (by norm_num)),
        Nat.div_eq_of_lt hm31]
    · rw [hlab, hw]
      show m + 2 ^ 31 = m + 1 * 2 ^ 31
      omega
  · rename_i hle
    push_neg at hle
    have hw31 : extractBitSlice s (k * c) c + carry < 2 ^ 31 := by omega
    have hlab : sliceLabel (extractBitSlice s (k * c) c + carry)
        = extractBitSlice s (k * c) c + carry :=
      Nat.mod_eq_of_lt hw31
    refine ⟨?_, ?_, by omega, ?_⟩
    · rw [hlab]; exact hle
    · rw [sliceCarry, Nat.div_eq_of_lt hw31]
    · rw [hlab]; omega

theorem sliceWindowsAux_label_le {c : ℕ} (hc1 : 1 ≤ c) (hc2 : c ≤ 31) (s : ℕ) :
    ∀ count k carry w, w ∈ sliceWindowsAux c s count k carry →
      sliceLabel w ≤ 2 ^ (c - 1) := by
  intro count
  induction count with
  | zero => intro k carry w hw; simp [sliceWindowsAux] at hw
  | succ n ih =>
    intro k carry w hw
    simp only [sliceWindowsAux, List.mem_cons] at hw
    rcases hw with rfl | hw
    · exact (sliceStep_spec hc1 hc2 s k carry).1
    · exact ih _ _ _ hw

/-- C6: for every input scalar and every window, the signed windowing recoding
stores a slice whose 31-bit label lies in `[0, L]` with `L = 2^(c-1)`; in
particular every nonzero label, i.e. every bucket label actually used, lies in
`[1, L]`. -/
theorem signedSlices_bounded {c : ℕ} (hc1 : 1 ≤ c) (hc2 : c ≤ 31)
    (K s : ℕ) :
    ∀ w ∈ sliceWindows c K s,
      sliceLabel w ≤ 2 ^ (c - 1) ∧
        (sliceLabel w ≠ 0 → 1 ≤ sliceLabel w ∧ sliceLabel w ≤ 2 ^ (c - 1)) := by
  intro w hw
  have h := sliceWindowsAux_label_le hc1 hc2 s K 0 0 w hw
  exact ⟨h, fun hne => ⟨Nat.one_le_iff_ne_zero.mpr hne, h⟩⟩

/-- Witness for `signedSlices_bounded`: the second slice of the scalar 1000
with window width `c = 4` (the slice `14` overflows `L = 8` and is recoded to
label `2` with carry 1). -/
theorem signedSlices_bounded_witness :
    sliceLabel ((sliceWindows 4 3 1000).getD 1 0) ≤ 2 ^ 3 ∧
      sliceLabel ((sliceWindows 4 3 1000).getD 1 0) = 2 :=
  ⟨(signedSlices_bounded (c := 4) (by decide) (by decide) 3 1000
      ((sliceWindows 4 3 1000).getD 1 0) (by decide)).1,
    by decide⟩

/-! ## Binary exponentiation (`power` in `field-msm.ts`)

The wasm function `power(scratch, z, x, n)` sets `z := mg1`, copies the base,
and then, for every limb of the exponent and every bit `j` of that limb
(least-significant first), multiplies `z` by the running power when the bit is
set and squares the running power unconditionally. `multiply`/`square` are the
Montgomery multiplication of the kernel, modelled here at the value level by
`fun a b => a * b * rinv` over an abstract commutative ring. The embedding
additionally counts squarings and multiplications, which the spec makes claims
about. -/

/-- Number of 1-bits of a natural number. -/
def popcount : ℕ → ℕ
  | 0 => 0
  | n + 1 => (n + 1) % 2 + popcount ((n + 1) / 2)
decreasing_by exact Nat.div_lt_self (Nat.succ_pos n) one_lt_two

/-- The value of a little-endian list of `w`-bit limbs. -/
def limbsToNat (w : ℕ) : List ℕ → ℕ
  | [] => 0
  | l :: ls => l + 2 ^ w * limbsToNat w ls

/-- The inner loop of `power` over the `w` bits of one exponent limb `ni`:
`if (ni & (1 << j)) multiply(z, z, x); square(x, x)`. Returns the updated
accumulator and base together with the running squaring and multiplication
counts. -/
def powerBits (mul : F → F → F) : ℕ → ℕ → F × F × ℕ × ℕ → F × F × ℕ × ℕ
  | 0, _, st => st
  | w + 1, ni, (z, x, sq, mu) =>
    let z' := if ni % 2 = 1 then mul z x else z
    let mu' := if ni % 2 = 1 then mu + 1 else mu
    powerBits mul w (ni / 2) (z', mul x x, sq + 1, mu')

/-- The outer loop of `power` over the exponent limbs. -/
def powerLimbs (mul : F → F → F) (w : ℕ) : List ℕ → F × F × ℕ × ℕ → F × F × ℕ × ℕ
  | [], st => st
  | ni :: ls, st => powerLimbs mul w ls (powerBits mul w ni st)

/-- Embedding of `power(scratch, z, x, n)` from `field-msm.ts`, with the
Montgomery multiplication passed in as `mul` and the exponent given as its
`w`-bit limbs. Returns the result `z` together with the number of squarings
and of multiplications performed. -/
def power (mul : F → F → F) (mg1 x : F) (limbs : List ℕ) (w : ℕ) :
    F × ℕ × ℕ :=
  let (z, _, sq, mu) := powerLimbs mul w limbs (mg1, x, 0, 0)
  (z, sq, mu)

theorem popcount_zero : popcount 0 = 0 := by simp [popcount]

theorem popcount_unfold (n : ℕ) : popcount n = n % 2 + popcount (n / 2) := by
  match n with
  | 0 => simp [popcount]
  | m + 1 => rw [popcount]

theorem popcount_low_add {w a b : ℕ} (ha : a < 2 ^ w) :
    popcount (a + 2 ^ w * b) = popcount a + popcount b := by
  induction w generalizing a b with
  | zero =>
    have ha0 : a = 0 := by omega
    subst ha0
    simp [popcount_zero]
  | succ w ih =>
    rw [popcount_unfold (a + 2 ^ (w + 1) * b), popcount_unfold a]
    have hmod : (a + 2 ^ (w + 1) * b) % 2 = a % 2 := by
      have : 2 ^ (w + 1) * b = 2 * (2 ^ w * b) := by ring
      omega
    have hdiv : (a + 2 ^ (w + 1) * b) / 2 = a / 2 + 2 ^ w * b := by
      have h2 : 2 ^ (w + 1) * b = 2 * (2 ^ w * b) := by ring
      omega
    rw [hmod, hdiv, ih (by omega)]
    ring

theorem mod_two_pow_succ_decompose (ni pw : ℕ) :
    ni % (2 * pw) = 2 * (ni / 2 % pw) + ni % 2 := by
  conv_lhs => rw [← Nat.div_add_mod ni 2]
  rcases eq_or_ne pw 0 with rfl | hpw
  · simp [Nat.mod_zero]
  · have h1 : (2 * (ni / 2) + ni % 2) % (2 * pw)
        = ((2 * (ni / 2)) % (2 * pw) + (ni % 2) % (2 * pw)) % (2 * pw) :=
      Nat.add_mod _ _ _
    have h2 : (2 * (ni / 2)) % (2 * pw) = 2 * (ni / 2 % pw) :=
      Nat.mul_mod_mul_left 2 (ni / 2) pw
    have h3 : (ni % 2) % (2 * pw) = ni % 2 := by
      apply Nat.mod_eq_of_lt
      have : ni % 2 < 2 := Nat.mod_lt _ (by norm_num)
      have : 1 ≤ pw := Nat.one_le_iff_ne_zero.mpr hpw
      omega
    rw [h1, h2, h3]
    apply Nat.mod_eq_of_lt
    have h4 : ni / 2 % pw < pw := Nat.mod_lt _ (Nat.pos_of_ne_zero hpw)
    have h5 : ni % 2 < 2 := Nat.mod_lt _ (by norm_num)
    omega

theorem powerBits_spec {F : Type} [CommRing F] (rinv : F) :
    ∀ (w ni : ℕ) (z x : F) (sq mu : ℕ),
      (powerBits (fun a b => a * b * rinv) w ni (z, x, sq, mu)).1 * rinv
          = z * rinv * (x * rinv) ^ (ni % 2 ^ w) ∧
        (powerBits (fun a b => a * b * rinv) w ni (z, x, sq, mu)).2.1 * rinv
          = (x * rinv) ^ 2 ^ w ∧
        (powerBits (fun a b => a * b * rinv) w ni (z, x, sq, mu)).2.2.1
          = sq + w ∧
        (powerBits (fun a b => a * b * rinv) w ni (z, x, sq, mu)).2.2.2
          = mu + popcount (ni % 2 ^ w) := by
  intro w
  induction w with
  | zero =>
    intro ni z x sq mu
    simp [powerBits, popcount_zero, Nat.mod_one]
  | succ w ih =>
    intro ni z x sq mu
    have hsplit : ni % 2 ^ (w + 1) = 2 * (ni / 2 % 2 ^ w) + ni % 2 := by
      have h : (2 : ℕ) ^ (w + 1) = 2 * 2 ^ w := by ring
      rw [h, mod_two_pow_succ_decompose]
    have hpop : popcount (ni % 2 ^ (w + 1))
        = ni % 2 + popcount (ni / 2 % 2 ^ w) := by
      rw [hsplit, popcount_unfold]
      have h1 : (2 * (ni / 2 % 2 ^ w) + ni % 2) % 2 = ni % 2 := by omega
      have h2 : (2 * (ni / 2 % 2 ^ w) + ni % 2) / 2 = ni / 2 % 2 ^ w := by omega
      rw [h1, h2]
    rcases Nat.mod_two_eq_zero_or_one ni with hbit | hbit
    · have heq : powerBits (fun a b => a * b * rinv) (w + 1) ni (z, x, sq, mu)
          = powerBits (fun a b => a * b * rinv) w (ni / 2)
              (z, x * x * rinv, sq + 1, mu) := by
        simp [powerBits, hbit]
      rw [heq]
      obtain ⟨h1, h2, h3, h4⟩ := ih (ni / 2) z (x * x * rinv) (sq + 1) mu
      refine ⟨?_, ?_, by omega, ?_⟩
      · rw [h1, hsplit]
        have hxx : x * x * rinv * rinv = (x * rinv) ^ 2 := by ring
        rw [hxx, ← pow_mul]
        have : ni % 2 = 0 := hbit
        rw [this, add_zero, mul_comm 2 (ni / 2 % 2 ^ w)]
      · rw [h2]
        have hxx : x * x * rinv * rinv = (x * rinv) ^ 2 := by ring
        rw [hxx, ← pow_mul, pow_succ, mul_comm (2 ^ w) 2]
      · rw [h4, hpop, hbit]
        omega
    · have heq : powerBits (fun a b => a * b * rinv) (w + 1) ni (z, x, sq, mu)
          = powerBits (fun a b => a * b * rinv) w (ni / 2)
              (z * x * rinv, x * x * rinv, sq + 1, mu + 1) := by
        simp [powerBits, hbit]
      rw [heq]
      obtain ⟨h1, h2, h3, h4⟩ := ih (ni / 2) (z * x * rinv) (x * x * rinv)
        (sq + 1) (mu + 1)
      refine ⟨?_, ?_, by omega, ?_⟩
      · rw [h1, hsplit, hbit]
        have hxx : x * x * rinv * rinv = (x * rinv) ^ 2 := by ring
        have hzx : z * x * rinv * rinv = z * rinv * (x * rinv) := by ring
        rw [hxx, hzx, ← pow_mul, mul_comm 2 (ni / 2 % 2 ^ w), pow_add, pow_one]
        ring
      · rw [h2]
        have hxx : x * x * rinv * rinv = (x * rinv) ^ 2 := by ring
        rw [hxx, ← pow_mul, pow_succ, mul_comm (2 ^ w) 2]
      · rw [h4, hpop, hbit]
        omega

theorem powerLimbs_spec {F : Type} [CommRing F] (rinv : F) (w : ℕ) :
    ∀ (limbs : List ℕ) (z x : F) (sq mu : ℕ),
      (powerLimbs (fun a b => a * b * rinv) w limbs (z, x, sq, mu)).1 * rinv
          = z * rinv
            * (x * rinv) ^ limbsToNat w (limbs.map (· % 2 ^ w)) ∧
        (powerLimbs (fun a b => a * b * rinv) w limbs (z, x, sq, mu)).2.1
            * rinv
          = (x * rinv) ^ 2 ^ (w * limbs.length) ∧
        (powerLimbs (fun a b => a * b * rinv) w limbs (z, x, sq, mu)).2.2.1
          = sq + w * limbs.length ∧
        (powerLimbs (fun a b => a * b * rinv) w limbs (z, x, sq, mu)).2.2.2
          = mu + popcount (limbsToNat w (limbs.map (· % 2 ^ w))) := by
  intro limbs
  induction limbs with
  | nil =>
    intro z x sq mu
    simp [powerLimbs, limbsToNat, popcount_zero]
  | cons ni ls ih =>
    intro z x sq mu
    have hstep : powerLimbs (fun a b => a * b * rinv) w (ni :: ls) (z, x, sq, mu)
        = powerLimbs (fun a b => a * b * rinv) w ls
            (powerBits (fun a b => a * b * rinv) w ni (z, x, sq, mu)) := rfl
    obtain ⟨b1, b2, b3, b4⟩ := powerBits_spec rinv w ni z x sq mu
    set st := powerBits (fun a b => a * b * rinv) w ni (z, x, sq, mu) with hst
    obtain ⟨l1, l2, l3, l4⟩ := ih st.1 st.2.1 st.2.2.1 st.2.2.2
    have hmod : ni % 2 ^ w < 2 ^ w := Nat.mod_lt _ (Nat.pos_pow_of_pos _ (by norm_num))
    have hval : limbsToNat w ((ni :: ls).map (· % 2 ^ w))
        = ni % 2 ^ w + 2 ^ w * limbsToNat w (ls.map (· % 2 ^ w)) := rfl
    refine ⟨?_, ?_, ?_, ?_⟩
    · rw [hstep]
      have : (st.1, st.2.1, st.2.2.1, st.2.2.2) = st := rfl
      rw [← this] at *
      rw [l1, b1, b2, hval, pow_add, pow_mul]
      ring
    · rw [hstep]
      have : (st.1, st.2.1, st.2.2.1, st.2.2.2) = st := rfl
      rw [← this] at *
      rw [l2, b2, ← pow_mul, ← pow_add]
      congr 1
      have : w * (ni :: ls).length = w + w * ls.length := by
        simp [List.length_cons]
        ring
      rw [this, pow_add]
    · rw [hstep]
      have : (st.1, st.2.1, st.2.2.1, st.2.2.2) = st := rfl
      rw [← this] at *
      rw [l3, b3]
      simp [List.length_cons]
      ring
    · rw [hstep]
      have : (st.1, st.2.1, st.2.2.1, st.2.2.2) = st := rfl
      rw [← this] at *
      rw [l4, b4, hval, popcount_low_add hmod]
      omega

theorem map_mod_self {w : ℕ} :
    ∀ l : List ℕ, (∀ x ∈ l, x < 2 ^ w) → l.map (· % 2 ^ w) = l := by
  intro l
  induction l with
  | nil => intro _; rfl
  | cons a as ih =>
    intro h
    have ha : a % 2 ^ w = a := Nat.mod_eq_of_lt (h a (by simp))
    have has := ih fun x hx => h x (by simp [hx])
    simp [ha, has]

/-- C8 counterexample: the claim says `pow` performs exactly `bitlen(n)`
squarings, but `power` squares once per bit position of every exponent limb,
regardless of `n`. For the exponent `n = 1` given as one 4-bit limb the code
performs 4 squarings while `bitlen(1) = 1`. -/
theorem power_squarings_ne_bitlen :
    (power (fun a b : ZMod 5 => a * b * 3) 2 4 [1] 4).2.1 = 4 ∧
      Nat.size 1 = 1 ∧ (4 : ℕ) ≠ 1 := by
  refine ⟨by decide, by simp [Nat.size], by decide⟩

/-- C8 (amended): `power(z, x, n)` computes the Montgomery-form result
`z = r * (x * rinv)^n` by right-to-left (least-significant-bit first) binary
exponentiation, performing exactly `w * (number of limbs)` squarings plus
`popcount(n)` multiplications, where the Montgomery multiplication is
`mul a b = a * b * rinv` and `z` is initialised with `mg1 = r`. -/
theorem power_correct {F : Type} [CommRing F] (r rinv : F) (hr : r * rinv = 1)
    (x : F) (w : ℕ) (limbs : List ℕ) (hl : ∀ l ∈ limbs, l < 2 ^ w) :
    (power (fun a b => a * b * rinv) r x limbs w).1
        = r * (x * rinv) ^ limbsToNat w limbs ∧
      (power (fun a b => a * b * rinv) r x limbs w).2.1 = w * limbs.length ∧
      (power (fun a b => a * b * rinv) r x limbs w).2.2
        = popcount (limbsToNat w limbs) := by
  have hmap : limbs.map (· % 2 ^ w) = limbs := map_mod_self limbs hl
  obtain ⟨h1, h2, h3, h4⟩ := powerLimbs_spec rinv w limbs r x 0 0
  rw [hmap] at h1 h4
  have hpow : power (fun a b => a * b * rinv) r x limbs w
      = ((powerLimbs (fun a b => a * b * rinv) w limbs (r, x, 0, 0)).1,
         (powerLimbs (fun a b => a * b * rinv) w limbs (r, x, 0, 0)).2.2.1,
         (powerLimbs (fun a b => a * b * rinv) w limbs (r, x, 0, 0)).2.2.2) := by
    rw [power]
  refine ⟨?_, ?_, ?_⟩
  · rw [hpow]
    have hz := h1
    rw [hr] at hz
    calc (powerLimbs (fun a b => a * b * rinv) w limbs (r, x, 0, 0)).1
        = (powerLimbs (fun a b => a * b * rinv) w limbs (r, x, 0, 0)).1 * 1 := by
          ring
      _ = (powerLimbs (fun a b => a * b * rinv) w limbs (r, x, 0, 0)).1
            * (rinv * r) := by rw [mul_comm rinv r, hr]
      _ = (powerLimbs (fun a b => a * b * rinv) w limbs (r, x, 0, 0)).1 * rinv
            * r := by ring
      _ = 1 * (x * rinv) ^ limbsToNat w limbs * r := by rw [hz]
      _ = r * (x * rinv) ^ limbsToNat w limbs := by ring
  · rw [hpow]
    simpa using h3
  · rw [hpow]
    simpa using h4

/-- Witness for `power_correct`: over `ZMod 5` with `r = 2`, `rinv = 3`,
base `x = 4` and exponent `13` given as the 3-bit limbs `[5, 1]`. -/
theorem power_correct_witness :
    ((2 : ZMod 5) * 3 = 1 ∧ ∀ l ∈ [5, 1], l < 2 ^ 3) ∧
      ((power (fun a b : ZMod 5 => a * b * 3) 2 4 [5, 1] 3).1
          = 2 * ((4 : ZMod 5) * 3) ^ limbsToNat 3 [5, 1] ∧
        (power (fun a b : ZMod 5 => a * b * 3) 2 4 [5, 1] 3).2.1 = 3 * 2 ∧
        (power (fun a b : ZMod 5 => a * b * 3) 2 4 [5, 1] 3).2.2
          = popcount (limbsToNat 3 [5, 1])) :=
  ⟨⟨by decide, by decide⟩,
    by
      have h := power_correct (F := ZMod 5) 2 3 (by decide) 4 3 [5, 1]
        (by decide)
      simpa using h⟩

/-! ## Tonelli-Shanks square root (`sqrt` in `field-msm.ts`)

The function first short-circuits on zero input (`isZero(x)` followed by
`copy(sqrtx, constants.zero); return true`), and otherwise runs the
Tonelli-Shanks loop on `u = x^t`, `sqrtx = x^((t+1)/2)` with the precomputed
roots-of-unity table. The embedding works over an abstract field with the
kernel's Montgomery multiplication passed in as `mul`; both loops take fuel
since their termination is a mathematical property of actual field inputs.
The third result component counts how many times the main loop body was
entered. -/

/-- The inner repeated-squaring loop of `sqrt`: finds the least `i_ ≥ 1` with
`u^(2^i_) = 1` by squaring `s` until it equals `mg1`. -/
def sqrtRepeatSquare (mul : F → F → F) [DecidableEq F] (mg1 : F) :
    ℕ → F → ℕ → Option ℕ
  | 0, _, _ => none
  | fuel + 1, s, i0 =>
    if s = mg1 then some i0 else sqrtRepeatSquare mul mg1 fuel (mul s s) (i0 + 1)

/-- The main Tonelli-Shanks loop of `sqrt`. State: `u`, `sqrtx`, the current
order bound `i`, and the number of loop entries so far. -/
def sqrtLoop {F : Type} [DecidableEq F] [Zero F] (mul : F → F → F) (mg1 : F)
    (roots : List F) (S : ℕ) : ℕ → F → F → ℕ → ℕ → Option (Bool × F × ℕ)
  | 0, _, _, _, _ => none
  | fuel + 1, u, sqrtx, i, iters =>
    if u = mg1 then some (true, sqrtx, iters + 1)
    else
      match sqrtRepeatSquare mul mg1 (S + 1) (mul u u) 1 with
      | none => none
      | some iNew =>
        if iNew = i then some (false, sqrtx, iters + 1)
        else
          sqrtLoop mul mg1 roots S fuel
            (mul u (roots.getD (S - iNew) 0))
            (mul sqrtx (roots.getD (S - iNew - 1) 0)) iNew (iters + 1)

/-- Embedding of `sqrt([u, s, scratch], sqrtx, x)` from `field-msm.ts`.
Returns the boolean success flag, the value written to `sqrtx`, and the number
of Tonelli-Shanks loop entries. `t1limbs` is the precomputed exponent
`t1 = (t-1)/2` in `w`-bit limbs. -/
def sqrtTS (mul : F → F → F) [DecidableEq F] [Zero F] (mg1 : F)
    (roots : List F) (S : ℕ) (t1limbs : List ℕ) (w : ℕ) (x : F) :
    Option (Bool × F × ℕ) :=
  if x = 0 then some (true, 0, 0)
  else
    let u0 := (power mul mg1 x t1limbs w).1
    let sqrtx := mul u0 x
    let u := mul u0 sqrtx
    sqrtLoop mul mg1 roots S (S + 1) u sqrtx S 0

/-- C10: on zero input, `sqrt` returns `true` and writes the canonical zero to
`dst`, with the Tonelli-Shanks loop never entered (zero loop iterations). -/
theorem sqrtTS_zero {F : Type} [Field F] [DecidableEq F] (mul : F → F → F)
    (mg1 : F) (roots : List F) (S : ℕ) (t1limbs : List ℕ) (w : ℕ) :
    sqrtTS mul mg1 roots S t1limbs w 0 = some (true, 0, 0) := by
  simp [sqrtTS]

/-! ## Batch-affine curve layer (`batchAdd`, `batchDoubleInPlace` in the MSM)

Affine points are `(x, y, nonzero)` triples; when the flag is unset the point
denotes the group identity and the coordinates are irrelevant. The field
arithmetic is an abstract field; `subtractPositive` and `add` of the kernel
act on values as field subtraction and addition. The curve formulas
(`addAffine`, `doubleAffine`) and `batchInverse` are modelled from the spec
since `curve-affine.js` and the wasm inverse module are not in the snapshot;
`batchAdd` and `batchDoubleInPlace` themselves are embedded from the MSM
source. -/

/-- Affine point with explicit nonzero flag (`PA` of the data model). -/
structure AffPoint (F : Type) where
  x : F
  y : F
  nz : Bool
deriving DecidableEq

/-- Modelled from the spec: `batchInverse(dst, src, n)` produces
`dst[i] = src[i]⁻¹` for all nonzero `src[i]` (Montgomery's trick; the
implementation `wasm/inverse.ts` is not in the snapshot). Zero entries must be
filtered by the caller. -/
def batchInverse {F : Type} [Field F] (l : List F) : List F := l.map (·⁻¹)

/-- Modelled from the spec: `addAffine(S, A, B, d)` with precomputed
`d = 1/(x₂ - x₁)` computes the chord addition
`m = (y₂ − y₁) · d`, `x₃ = m² − x₁ − x₂`, `y₃ = m(x₁ − x₃) − y₁`. -/
def addAffine {F : Type} [Field F] (g h : AffPoint F) (d : F) : AffPoint F :=
  let m := (h.y - g.y) * d
  let x3 := m * m - g.x - h.x
  let y3 := m * (g.x - x3) - g.y
  ⟨x3, y3, true⟩

/-- Modelled from the spec: affine doubling with precomputed `d = 1/(2y)`,
tangent slope `m = (3x² + a) · d`, `x₃ = m² − 2x`, `y₃ = m(x − x₃) − y`. -/
def doubleAffine {F : Type} [Field F] (aCoeff : F) (g : AffPoint F) (d : F) :
    AffPoint F :=
  let m := (3 * g.x * g.x + aCoeff) * d
  let x3 := m * m - 2 * g.x
  let y3 := m * (g.x - x3) - g.y
  ⟨x3, y3, true⟩

/-- A pending or finished slot of `batchAdd`: either the output is already
known (zero-point and opposite-point cases), or it awaits the shared batch
inversion, remembering its index into the dense denominator array
(`iBoth[i]` in the source). -/
inductive BatchSlot (F : Type) where
  | done (s : AffPoint F)
  | pendAdd (g h : AffPoint F) (slot : ℕ)
  | pendDouble (g : AffPoint F) (slot : ℕ)
deriving DecidableEq

/-- The classification loop of `batchAdd`: walks the point pairs, copies
zero-point cases through, marks opposite points as identity, and packs the
denominators of the doubling (`2y`) and generic-addition (`x₂ − x₁`) cases
into a dense array, assigning each its running index `nBoth`. -/
def batchAddClassify {F : Type} [Field F] [DecidableEq F] :
    List (AffPoint F × AffPoint F) → ℕ → List (BatchSlot F) × List F
  | [], _ => ([], [])
  | (g, h) :: rest, n =>
    if g.nz = false then
      let (slots, denoms) := batchAddClassify rest n
      (BatchSlot.done h :: slots, denoms)
    else if h.nz = false then
      let (slots, denoms) := batchAddClassify rest n
      (BatchSlot.done g :: slots, denoms)
    else if g.x = h.x then
      if g.y = h.y then
        let (slots, denoms) := batchAddClassify rest (n + 1)
        (BatchSlot.pendDouble g n :: slots, (g.y + g.y) :: denoms)
      else
        let (slots, denoms) := batchAddClassify rest n
        (BatchSlot.done ⟨g.x, g.y, false⟩ :: slots, denoms)
    else
      let (slots, denoms) := batchAddClassify rest (n + 1)
      (BatchSlot.pendAdd g h n :: slots, (h.x - g.x) :: denoms)

/-- Resolves a slot after the batch inversion, dispatching to `addAffine` or
`doubleAffine` with the inverse at the slot's dense index. -/
def applySlot {F : Type} [Field F] (aCoeff : F) (invs : List F) :
    BatchSlot F → AffPoint F
  | BatchSlot.done s => s
  | BatchSlot.pendAdd g h k => addAffine g h (invs.getD k 0)
  | BatchSlot.pendDouble g k => doubleAffine aCoeff g (invs.getD k 0)

/-- Embedding of the safe `batchAdd(scratch, tmp, d, S, G, H, n)` of the MSM:
classify every pair, perform one shared `batchInverse` over the dense
denominator array, then resolve each slot. -/
def batchAdd {F : Type} [Field F] [DecidableEq F] (aCoeff : F)
    (G H : List (AffPoint F)) : List (AffPoint F) :=
  let (slots, denoms) := batchAddClassify (G.zip H) 0
  let invs := batchInverse denoms
  slots.map (applySlot aCoeff invs)

/-- The complete affine addition law, by the classification the claim
describes: copy the other point when one is the identity; for equal `x`,
double on equal `y` and return the identity on opposite `y`; otherwise chord
addition. Division is by a direct field inverse. -/
def addComplete {F : Type} [Field F] [DecidableEq F] (aCoeff : F)
    (g h : AffPoint F) : AffPoint F :=
  if g.nz = false then h
  else if h.nz = false then g
  else if g.x = h.x then
    if g.y = h.y then doubleAffine aCoeff g (g.y + g.y)⁻¹
    else ⟨g.x, g.y, false⟩
  else addAffine g h (h.x - g.x)⁻¹

/-- Observational equality of affine points: equal flags, and equal
coordinates whenever the point is not the identity. -/
def pEquiv {F : Type} (P Q : AffPoint F) : Prop :=
  P.nz = Q.nz ∧ (P.nz = true → P.x = Q.x ∧ P.y = Q.y)

theorem pEquiv_refl {F : Type} (P : AffPoint F) : pEquiv P P :=
  ⟨rfl, fun _ => ⟨rfl, rfl⟩⟩

theorem getD_append_len {F : Type} [Field F] :
    ∀ (pre : List F) (a : F) (t : List F), (pre ++ a :: t).getD pre.length 0 = a := by
  intro pre
  induction pre with
  | nil => intro a t; rfl
  | cons b bs ih => intro a t; simpa [List.getD] using ih a t

theorem batchAddClassify_apply {F : Type} [Field F] [DecidableEq F]
    (aCoeff : F) :
    ∀ (pairs : List (AffPoint F × AffPoint F)) (n : ℕ) (pre : List F),
      pre.length = n →
      List.Forall₂ pEquiv
        ((batchAddClassify pairs n).1.map
          (applySlot aCoeff (pre ++ batchInverse (batchAddClassify pairs n).2)))
        (pairs.map fun gh => addComplete aCoeff gh.1 gh.2) := by
  intro pairs
  induction pairs with
  | nil =>
    intro n pre hpre
    simp [batchAddClassify]
  | cons gh rest ih =>
    intro n pre hpre
    obtain ⟨g, h⟩ := gh
    by_cases hg : g.nz = false
    · have hcl : batchAddClassify ((g, h) :: rest) n
          = (BatchSlot.done h :: (batchAddClassify rest n).1,
             (batchAddClassify rest n).2) := by
        simp [batchAddClassify, hg]
      have hac : addComplete aCoeff g h = h := by
        simp [addComplete, hg]
      rw [hcl]
      simp only [List.map_cons, applySlot, hac]
      exact List.Forall₂.cons (pEquiv_refl h) (ih n pre hpre)
    · by_cases hh : h.nz = false
      · have hcl : batchAddClassify ((g, h) :: rest) n
            = (BatchSlot.done g :: (batchAddClassify rest n).1,
               (batchAddClassify rest n).2) := by
          simp [batchAddClassify, hg, hh]
        have hac : addComplete aCoeff g h = g := by
          simp [addComplete, hg, hh]
        rw [hcl]
        simp only [List.map_cons, applySlot, hac]
        exact List.Forall₂.cons (pEquiv_refl g) (ih n pre hpre)
      · by_cases hx : g.x = h.x
        · by_cases hy : g.y = h.y
          · have hcl : batchAddClassify ((g, h) :: rest) n
                = (BatchSlot.pendDouble g n :: (batchAddClassify rest (n + 1)).1,
                   (g.y + g.y) :: (batchAddClassify rest (n + 1)).2) := by
              simp [batchAddClassify, hg, hh, hx, hy]
            have hac : addComplete aCoeff g h
                = doubleAffine aCoeff g (g.y + g.y)⁻¹ := by
              simp [addComplete, hg, hh, hx, hy]
            rw [hcl]
            have hbi : batchInverse ((g.y + g.y) ::
                (batchAddClassify rest (n + 1)).2)
                = (g.y + g.y)⁻¹
                  :: batchInverse (batchAddClassify rest (n + 1)).2 := rfl
            simp only [List.map_cons, applySlot, hac, hbi]
            refine List.Forall₂.cons ?_ ?_
            · have hget : (pre ++ (g.y + g.y)⁻¹ ::
                  batchInverse (batchAddClassify rest (n + 1)).2).getD n 0
                  = (g.y + g.y)⁻¹ := by
                rw [← hpre]
                exact getD_append_len pre _ _
              rw [hget]
              exact pEquiv_refl _
            · have hlen : (pre ++ [(g.y + g.y)⁻¹]).length = n + 1 := by
                simp [hpre]
              have hih := ih (n + 1) (pre ++ [(g.y + g.y)⁻¹]) hlen
              have hrw : (pre ++ [(g.y + g.y)⁻¹])
                  ++ batchInverse (batchAddClassify rest (n + 1)).2
                  = pre ++ (g.y + g.y)⁻¹
                    :: batchInverse (batchAddClassify rest (n + 1)).2 := by
                simp
              rw [hrw] at hih
              exact hih
          · have hcl : batchAddClassify ((g, h) :: rest) n
                = (BatchSlot.done ⟨g.x, g.y, false⟩ ::
                    (batchAddClassify rest n).1,
                   (batchAddClassify rest n).2) := by
              simp [batchAddClassify, hg, hh, hx, hy]
            have hac : addComplete aCoeff g h = ⟨g.x, g.y, false⟩ := by
              simp [addComplete, hg, hh, hx, hy]
            rw [hcl]
            simp only [List.map_cons, applySlot, hac]
            exact List.Forall₂.cons (pEquiv_refl _) (ih n pre hpre)
        · have hcl : batchAddClassify ((g, h) :: rest) n
              = (BatchSlot.pendAdd g h n :: (batchAddClassify rest (n + 1)).1,
                 (h.x - g.x) :: (batchAddClassify rest (n + 1)).2) := by
            simp [batchAddClassify, hg, hh, hx]
          have hac : addComplete aCoeff g h
              = addAffine g h (h.x - g.x)⁻¹ := by
            simp [addComplete, hg, hh, hx]
          rw [hcl]
          have hbi : batchInverse ((h.x - g.x) ::
              (batchAddClassify rest (n + 1)).2)
              = (h.x - g.x)⁻¹
                :: batchInverse (batchAddClassify rest (n + 1)).2 := rfl
          simp only [List.map_cons, applySlot, hac, hbi]
          refine List.Forall₂.cons ?_ ?_
          · have hget : (pre ++ (h.x - g.x)⁻¹ ::
                batchInverse (batchAddClassify rest (n + 1)).2).getD n 0
                = (h.x - g.x)⁻¹ := by
              rw [← hpre]
              exact getD_append_len pre _ _
            rw [hget]
            exact pEquiv_refl _
          · have hlen : (pre ++ [(h.x - g.x)⁻¹]).length = n + 1 := by
              simp [hpre]
            have hih := ih (n + 1) (pre ++ [(h.x - g.x)⁻¹]) hlen
            have hrw : (pre ++ [(h.x - g.x)⁻¹])
                ++ batchInverse (batchAddClassify rest (n + 1)).2
                = pre ++ (h.x - g.x)⁻¹
                  :: batchInverse (batchAddClassify rest (n + 1)).2 := by
              simp
            rw [hrw] at hih
            exact hih

theorem batchAddClassify_denoms_ne_zero {F : Type} [Field F] [DecidableEq F]
    (h2 : (2 : F) ≠ 0) :
    ∀ (pairs : List (AffPoint F × AffPoint F)) (n : ℕ),
      (∀ gh ∈ pairs, gh.1.nz = true → gh.1.y ≠ 0) →
      ∀ d ∈ (batchAddClassify pairs n).2, d ≠ 0 := by
  intro pairs
  induction pairs with
  | nil => intro n _ d hd; simp [batchAddClassify] at hd
  | cons gh rest ih =>
    intro n hy d hd
    obtain ⟨g, h⟩ := gh
    have hyrest : ∀ gh ∈ rest, gh.1.nz = true → gh.1.y ≠ 0 :=
      fun gh hm => hy gh (by simp [hm])
    by_cases hg : g.nz = false
    · rw [show batchAddClassify ((g, h) :: rest) n
          = (BatchSlot.done h :: (batchAddClassify rest n).1,
             (batchAddClassify rest n).2) by simp [batchAddClassify, hg]] at hd
      exact ih n hyrest d hd
    · by_cases hh : h.nz = false
      · rw [show batchAddClassify ((g, h) :: rest) n
            = (BatchSlot.done g :: (batchAddClassify rest n).1,
               (batchAddClassify rest n).2) by
            simp [batchAddClassify, hg, hh]] at hd
        exact ih n hyrest d hd
      · by_cases hx : g.x = h.x
        · by_cases hyy : g.y = h.y
          · rw [show batchAddClassify ((g, h) :: rest) n
                = (BatchSlot.pendDouble g n ::
                    (batchAddClassify rest (n + 1)).1,
                   (g.y + g.y) :: (batchAddClassify rest (n + 1)).2) by
                simp [batchAddClassify, hg, hh, hx, hyy]] at hd
            simp only [List.mem_cons] at hd
            rcases hd with rfl | hd
            · have hgy : g.y ≠ 0 :=
                hy (g, h) (by simp) (by simpa using hg)
              have : g.y + g.y = 2 * g.y := by ring
              rw [this]
              exact mul_ne_zero h2 hgy
            · exact ih (n + 1) hyrest d hd
          · rw [show batchAddClassify ((g, h) :: rest) n
                = (BatchSlot.done ⟨g.x, g.y, false⟩ ::
                    (batchAddClassify rest n).1,
                   (batchAddClassify rest n).2) by
                simp [batchAddClassify, hg, hh, hx, hyy]] at hd
            exact ih n hyrest d hd
        · rw [show batchAddClassify ((g, h) :: rest) n
              = (BatchSlot.pendAdd g h n ::
                  (batchAddClassify rest (n + 1)).1,
                 (h.x - g.x) :: (batchAddClassify rest (n + 1)).2) by
              simp [batchAddClassify, hg, hh, hx]] at hd
          simp only [List.mem_cons] at hd
          rcases hd with rfl | hd
          · exact sub_ne_zero.mpr (Ne.symm hx)
          · exact ih (n + 1) hyrest d hd

/-- C4: the safe `batchAdd` computes `S[i] = G[i] + H[i]` for every index,
where `+` is the complete affine addition law given by the claim's
classification (copy on zero, doubling or identity on equal `x`, chord
addition otherwise), and every denominator packed into the dense array for
the one shared batch inversion is nonzero (assuming no nonzero input point of
`G` has `y = 0`, and the field characteristic is not 2). -/
theorem batchAdd_correct {F : Type} [Field F] [DecidableEq F] (aCoeff : F)
    (G H : List (AffPoint F)) (hy : ∀ P ∈ G, P.nz = true → P.y ≠ 0)
    (h2 : (2 : F) ≠ 0) :
    List.Forall₂ pEquiv (batchAdd aCoeff G H)
        ((G.zip H).map fun gh => addComplete aCoeff gh.1 gh.2) ∧
      ∀ d ∈ (batchAddClassify (G.zip H) 0).2, d ≠ 0 := by
  constructor
  · have := batchAddClassify_apply aCoeff (G.zip H) 0 [] rfl
    simpa [batchAdd] using this
  · apply batchAddClassify_denoms_ne_zero h2
    intro gh hm
    exact hy gh.1 (List.of_mem_zip hm).1

instance : Fact (Nat.Prime 7) := ⟨by norm_num⟩

/-- Witness for `batchAdd_correct` over `ZMod 7` with the curve coefficient
`a = 0`: the five pairs exercise the zero-`G`, zero-`H`, doubling, opposite
and generic classes. -/
theorem batchAdd_correct_witness :
    ((∀ P ∈ [(⟨0, 0, false⟩ : AffPoint (ZMod 7)), ⟨1, 2, true⟩, ⟨1, 2, true⟩,
          ⟨1, 2, true⟩, ⟨2, 3, true⟩], P.nz = true → P.y ≠ 0) ∧
        (2 : ZMod 7) ≠ 0) ∧
      (List.Forall₂ pEquiv
          (batchAdd 0
            [(⟨0, 0, false⟩ : AffPoint (ZMod 7)), ⟨1, 2, true⟩, ⟨1, 2, true⟩,
              ⟨1, 2, true⟩, ⟨2, 3, true⟩]
            [⟨1, 2, true⟩, ⟨0, 0, false⟩, ⟨1, 2, true⟩, ⟨1, 5, true⟩,
              ⟨3, 1, true⟩])
          (([(⟨0, 0, false⟩ : AffPoint (ZMod 7)), ⟨1, 2, true⟩, ⟨1, 2, true⟩,
              ⟨1, 2, true⟩, ⟨2, 3, true⟩].zip
            [⟨1, 2, true⟩, ⟨0, 0, false⟩, ⟨1, 2, true⟩, ⟨1, 5, true⟩,
              ⟨3, 1, true⟩]).map fun gh => addComplete 0 gh.1 gh.2) ∧
        ∀ d ∈ (batchAddClassify
            ([(⟨0, 0, false⟩ : AffPoint (ZMod 7)), ⟨1, 2, true⟩, ⟨1, 2, true⟩,
              ⟨1, 2, true⟩, ⟨2, 3, true⟩].zip
            [⟨1, 2, true⟩, ⟨0, 0, false⟩, ⟨1, 2, true⟩, ⟨1, 5, true⟩,
              ⟨3, 1, true⟩]) 0).2, d ≠ 0) :=
  ⟨⟨by decide, by decide⟩,
    batchAdd_correct (F := ZMod 7) 0 _ _ (by decide) (by decide)⟩

/-- The denominator-collection loop of `batchDoubleInPlace(scratch, tmp, d, G, n)`:
zero points are skipped (`if (isZeroAffine(G[i])) continue`), and for every
remaining point the denominator `2y` is written to the dense `tmp` array
(`add(tmp[n1], y, y)`). -/
def batchDoubleDenoms {F : Type} [Field F] : List (AffPoint F) → List F
  | [] => []
  | P :: rest =>
    if P.nz = false then batchDoubleDenoms rest
    else (P.y + P.y) :: batchDoubleDenoms rest

/-- The write-back loop of `batchDoubleInPlace`: every nonzero point is
doubled in place with its slot of the shared inverses; zero points are left
untouched. -/
def batchDoubleApply {F : Type} [Field F] (aCoeff : F) (invs : List F) :
    List (AffPoint F) → ℕ → List (AffPoint F)
  | [], _ => []
  | P :: rest, k =>
    if P.nz = false then P :: batchDoubleApply aCoeff invs rest k
    else doubleAffine aCoeff P (invs.getD k 0)
      :: batchDoubleApply aCoeff invs rest (k + 1)

/-- Embedding of `batchDoubleInPlace(scratch, tmp, d, G, n)` from the MSM:
collect the `2y` denominators of the nonzero points, invert them with one
shared `batchInverse`, and double each nonzero point in place. -/
def batchDoubleInPlace {F : Type} [Field F] (aCoeff : F)
    (G : List (AffPoint F)) : List (AffPoint F) :=
  batchDoubleApply aCoeff (batchInverse (batchDoubleDenoms G)) G 0

/-- C9: `batchDoubleInPlace` skips every point whose nonzero flag is unset and
passes exactly the denominators `2y` of the remaining points to the shared
`batchInverse`; under the precondition that no nonzero input point has
`y = 0` (and characteristic ≠ 2), every denominator handed to `batchInverse`
is nonzero, so the batched doubling is well-defined. -/
theorem batchDouble_denoms_nonzero {F : Type} [Field F] [DecidableEq F]
    (G : List (AffPoint F)) (hy : ∀ P ∈ G, P.nz = true → P.y ≠ 0)
    (h2 : (2 : F) ≠ 0) :
    batchDoubleDenoms G
        = (G.filter (fun P => P.nz)).map (fun P => P.y + P.y) ∧
      ∀ d ∈ batchDoubleDenoms G, d ≠ 0 := by
  constructor
  · induction G with
    | nil => rfl
    | cons P rest ih =>
      have ihh := ih fun Q hm hnz => hy Q (by simp [hm]) hnz
      by_cases hP : P.nz = false
      · simp [batchDoubleDenoms, List.filter, hP, ihh]
      · have hP' : P.nz = true := by simpa using hP
        simp [batchDoubleDenoms, List.filter, hP, hP', ihh]
  · induction G with
    | nil => intro d hd; simp [batchDoubleDenoms] at hd
    | cons P rest ih =>
      intro d hd
      have ihh := ih fun Q hm hnz => hy Q (by simp [hm]) hnz
      by_cases hP : P.nz = false
      · rw [show batchDoubleDenoms (P :: rest) = batchDoubleDenoms rest by
          simp [batchDoubleDenoms, hP]] at hd
        exact ihh d hd
      · rw [show batchDoubleDenoms (P :: rest)
            = (P.y + P.y) :: batchDoubleDenoms rest by
          simp [batchDoubleDenoms, hP]] at hd
        rcases List.mem_cons.mp hd with rfl | hd
        · have hPy : P.y ≠ 0 := hy P (by simp) (by simpa using hP)
          have h22 : P.y + P.y = 2 * P.y := by ring
          rw [h22]
          exact mul_ne_zero h2 hPy
        · exact ihh d hd

/-- Witness for `batchDouble_denoms_nonzero` over `ZMod 7`: a list with one
zero point and two nonzero points. -/
theorem batchDouble_denoms_nonzero_witness :
    ((∀ P ∈ [(⟨3, 4, true⟩ : AffPoint (ZMod 7)), ⟨0, 0, false⟩,
          ⟨5, 1, true⟩], P.nz = true → P.y ≠ 0) ∧ (2 : ZMod 7) ≠ 0) ∧
      (batchDoubleDenoms [(⟨3, 4, true⟩ : AffPoint (ZMod 7)), ⟨0, 0, false⟩,
            ⟨5, 1, true⟩]
          = ([(⟨3, 4, true⟩ : AffPoint (ZMod 7)), ⟨0, 0, false⟩,
              ⟨5, 1, true⟩].filter (fun P => P.nz)).map
              (fun P => P.y + P.y) ∧
        ∀ d ∈ batchDoubleDenoms [(⟨3, 4, true⟩ : AffPoint (ZMod 7)),
            ⟨0, 0, false⟩, ⟨5, 1, true⟩], d ≠ 0) :=
  ⟨⟨by decide, by decide⟩,
    batchDouble_denoms_nonzero (F := ZMod 7) _ (by decide) (by decide)⟩

/-! ## Montgomery multiplication in the 51x5 kernel
(`multiply` in `51x5/fma.ts` as run by `montmulFma` in `51x5/fma-js.ts`;
integer fallback `multiplySingle` / `multiplyNoFma` in `51x5/fma.ts`)

Every IEEE-754 binary64 value arising in this kernel is a dyadic rational
with denominator at most 2, so a double is represented exactly by twice its
value, as an integer. Rounding (round-to-nearest, ties-to-even) and the raw
bit reinterpretations (`numberToBigint64` / `bigint64ToNumber`) are explicit.
All arithmetic is over the Pallas base modulus, the modulus the snapshot's
tests exercise. -/

/-- Floor of the base-2 logarithm of a natural number (fuel-based so that it
reduces in the kernel); `flog2 fuel 0 = 0`. -/
def flog2 : ℕ → ℕ → ℕ
  | 0, _ => 0
  | fuel + 1, n => if n ≤ 1 then 0 else flog2 fuel (n / 2) + 1

/-- Round a dyadic value (given as twice its value) to the nearest IEEE-754
binary64 double (ties to even), returning twice the rounded value. -/
def rne2 (v2 : ℤ) : ℤ :=
  if v2 = 0 then 0
  else
    let a := v2.natAbs
    let e : ℤ := (flog2 200 a : ℤ) - 1
    let s : ℤ := e - 51
    if s ≤ 0 then v2
    else
      let s := s.toNat
      let q := a / 2 ^ s
      let r := a % 2 ^ s
      let half := 2 ^ (s - 1)
      let q' := if r < half then q else if half < r then q + 1
        else if q % 2 = 0 then q else q + 1
      (if v2 < 0 then -(q' * 2 ^ s : ℤ) else (q' * 2 ^ s : ℤ))

/-- The raw bit pattern (as an unsigned 64-bit integer) of a nonnegative
normal double given as twice its value: `numberToBigint64` of
`mul-float/float.ts`. -/
def n2b2 (v2 : ℤ) : ℤ :=
  if v2 ≤ 0 then 0
  else
    let a := v2.toNat
    let e : ℤ := (flog2 200 a : ℤ) - 1
    let mant : ℤ :=
      if 51 - e ≥ 0 then (a : ℤ) * 2 ^ (51 - e).toNat
      else ((a / 2 ^ (e - 51).toNat : ℕ) : ℤ)
    (e + 1022) * 2 ^ 52 + mant

/-- Decode an unsigned 64-bit bit pattern as a double (normal numbers only),
returning twice the value: `bigint64ToNumber` of the source. -/
def b2n2 (b : ℤ) : ℤ :=
  let b := b.emod (2 ^ 64)
  let mag := b % 2 ^ 63
  let e := mag / 2 ^ 52
  let m := mag % 2 ^ 52
  let val : ℤ :=
    if e ≥ 1074 then (2 ^ 52 + m) * 2 ^ (e - 1074).toNat
    else (2 ^ 52 + m) / 2 ^ (1074 - e).toNat
  if b / 2 ^ 63 = 1 then -val else val

/-- Fused multiply-add (`Math.fma` / relaxed-SIMD `madd`) on doubled values:
a single rounding of the exact `x * y + z`. -/
def madd2 (x2 y2 z2 : ℤ) : ℤ := rne2 (x2 * y2 / 2 + z2)

/-- Two's-complement wrap to a signed 64-bit integer (a `BigInt64Array`
store). -/
def wrap64 (v : ℤ) : ℤ := (v + 2 ^ 63).emod (2 ^ 64) - 2 ^ 63

/-! Constants of `51x5/common.ts`, as doubled values. Note `c51 = 2^51`
(doubled: `2^52`) — this is the constant the kernel's `qi` raw-bits
conversion uses. -/

def c103x2 : ℤ := 2 ^ 104
def c52x2 : ℤ := 2 ^ 53
def c51x2 : ℤ := 2 ^ 52
def c51x3x2 : ℤ := 3 * 2 ^ 52
def c2x2 : ℤ := c103x2 + c51x3x2

def hiPre : ℤ := n2b2 c103x2
def loPre : ℤ := n2b2 c51x3x2
def c52n : ℤ := n2b2 c52x2
def c51n : ℤ := n2b2 c51x2

/-- The Pallas base field modulus (`pallasParams.modulus`). -/
def pPallas : ℕ :=
  0x40000000000000000000000000000000224698fc094cf91b992d30ed00000001

/-- The kernel constant `pInv = inverse(-p, 1n << 51n)`; its defining
property `p * pInv51 ≡ -1 (mod 2^51)` could be checked by `decide`. -/
def pInv51 : ℤ := 0x530ecffffffff

/-- The 5 little-endian 51-bit limbs of a bigint (`bigintToInt51Limbs`). -/
def toLimbs51 (x : ℕ) : List ℕ :=
  (List.range 5).map fun i => x / 2 ^ (51 * i) % 2 ^ 51

/-- `int64ToFloat52`: reinterpret `l | bits(2^52)` as a double and subtract
`2^52`, yielding the double of value `l` (doubled representation). -/
def int64ToFloat52 (l : ℕ) : ℤ := rne2 (b2n2 ((l : ℤ) + c52n) - c52x2)

/-- `bigintToFloat51Limbs`: the limbs of `x` as (doubled) doubles. -/
def toF (x : ℕ) : List ℤ := (toLimbs51 x).map int64ToFloat52

/-- `float51ToInt64`: `(numberToBigint64(x + c52) - c52n) & mask51`. -/
def float51ToInt64 (f2 : ℤ) : ℤ :=
  (n2b2 (rne2 (f2 + c52x2)) - c52n).emod (2 ^ 51)

/-- `bigintFromFloat51Limbs`: recombine (doubled) float limbs to a bigint. -/
def fromF (fl : List ℤ) : ℕ :=
  fl.foldr (fun f acc => acc * 2 ^ 51 + (float51ToInt64 f).toNat) 0

/-- The modulus as (doubled) float limbs (`PF` in `fma-js.ts`). -/
def pallasPF : List ℤ := toF pPallas

def loCount : List ℤ := [1, 2, 3, 4, 5, 4, 3, 2, 1, 0]
def hiCount : List ℤ := [0, 1, 2, 3, 4, 5, 4, 3, 2, 1]

/-- The `zInitial` offsets that cancel the float-prefix bias accumulated by
the raw-bits products. -/
def zInitialI (i : ℕ) : ℤ :=
  -((2 * (hiCount.getD i 0 * hiPre + loCount.getD i 0 * loPre)).emod (2 ^ 64))

/-- The inner `j = 1..4` loop of one Montgomery round of `montmulFma`
(`fma-js.ts`): `Z[j-1] = Z[j] + carry + bits(lo1) + bits(lo2)` with
`carry = bits(hi1) + bits(hi2)`, finishing with
`Z[4] = zInitial[5+i] + carry`. -/
def fmaInner (xi qi : ℤ) : List (ℤ × ℤ) → List ℤ → ℤ → ℤ → List ℤ
  | [], _, carry, zI => [wrap64 (zI + carry)]
  | (yj, pj) :: rest, zs, carry, zI =>
    let hi1 := madd2 xi yj c103x2
    let hi2 := madd2 qi pj c103x2
    let lo1 := madd2 xi yj (rne2 (c2x2 - hi1))
    let lo2 := madd2 qi pj (rne2 (c2x2 - hi2))
    wrap64 (zs.getD 0 0 + carry + n2b2 lo1 + n2b2 lo2)
      :: fmaInner xi qi rest (zs.drop 1) (n2b2 hi1 + n2b2 hi2) zI

/-- One outer round `i` of `montmulFma`: process `x_i`, compute the Montgomery
quotient digit `qi` via the raw-bits trick with `c51n`/`c51`, and fold the
carry chain. -/
def fmaRound (Y PF : List ℤ) (Z : List ℤ) (xi : ℤ) (zI : ℤ) : List ℤ :=
  let y0 := Y.getD 0 0
  let p0 := PF.getD 0 0
  let hi1 := madd2 xi y0 c103x2
  let lo1 := madd2 xi y0 (rne2 (c2x2 - hi1))
  let z0 := wrap64 (Z.getD 0 0 + n2b2 lo1)
  let qi := rne2 (b2n2 ((z0 * pInv51).emod (2 ^ 51) + c51n) - c51x2)
  let hi2 := madd2 qi p0 c103x2
  let lo2 := madd2 qi p0 (rne2 (c2x2 - hi2))
  let carry := n2b2 hi1 + n2b2 hi2 + Int.fdiv (z0 + n2b2 lo2) (2 ^ 51)
  fmaInner xi qi ((Y.drop 1).zip (PF.drop 1)) (Z.drop 1) carry zI

/-- The final carry propagation of `montmulFma`, with the source's assertions
(each `floats[i] >= 0`, final `carry === 0n`) modelled as `none` results. -/
def fmaFinishGo : List ℤ → ℤ → List ℤ → Option (List ℤ)
  | [], carry, acc => if carry = 0 then some acc.reverse else none
  | z :: rest, carry, acc =>
    let lo := (z + carry).emod (2 ^ 51)
    let f := rne2 (b2n2 (lo + c52n) - c52x2)
    if f < 0 then none
    else fmaFinishGo rest (Int.fdiv z (2 ^ 51)) (f :: acc)

/-- Embedding of `montmulFma(X, Y)` from `51x5/fma-js.ts` over the Pallas
modulus: 5 Montgomery rounds on a `BigInt64Array` of 5 accumulators
initialised with `zInitial`, followed by carry propagation. `none` models an
assertion failure. -/
def montmulFma (X Y : List ℤ) : Option (List ℤ) :=
  let PF := pallasPF
  let Z0 : List ℤ := (List.range 5).map fun i => wrap64 (zInitialI i)
  let Z := (List.range 5).foldl
    (fun Z i => fmaRound Y PF Z (X.getD i 0) (zInitialI (5 + i))) Z0
  if Z.getD 4 0 < 0 then none
  else fmaFinishGo Z 0 []

/-- `montmulFma` on bigints: convert to float limbs, multiply, convert back. -/
def montMulFmaWrapped (x y : ℕ) : Option ℕ :=
  (montmulFma (toF x) (toF y)).map fromF

/-! The integer fallback: `multiplySingle` in `51x5/fma.ts`, called twice by
`multiplyNoFma` (once per memory lane; both lanes compute the same function
of their inputs, so one copy is embedded). Each 51-bit limb is processed as a
26-bit low half and a 25-bit high half, with the odd-indexed products of the
high half doubled to account for the shifted weight. -/

def mask26v : ℕ := 2 ^ 26 - 1
def mask25v : ℕ := 2 ^ 25 - 1

/-- `pInvHalf26 = inverse(-p, 1 << 26)`; for Pallas (`p ≡ 1 mod 2^26`) this
is the mask itself, which selects the specialised negation branch of
`computeQ`. -/
def pInv26 : ℕ := mask26v

/-- `pInvHalf25 = inverse(-p, 1 << 25)`, again the mask for Pallas. -/
def pInv25 : ℕ := mask25v

/-- The quotient-digit computation of `multiplySingle`: specialised negation
when `pInv` is the all-ones mask, generic multiply-and-mask otherwise. -/
def computeQ (z pInv mask : ℕ) : ℕ :=
  if pInv = mask then (mask + 1 - z % (mask + 1)) % (mask + 1)
  else z % (mask + 1) * pInv % (mask + 1)

/-- Split 51-bit limbs into interleaved 26-bit low / 25-bit high halves. -/
def split2625 (limbs : List ℕ) : List ℕ :=
  limbs.foldr (fun v acc => v % 2 ^ 26 :: v / 2 ^ 26 :: acc) []

/-- The modulus in interleaved 26/25-bit halves (`P` of `multiplySingle`). -/
def pallasP10 : List ℕ := split2625 (toLimbs51 pPallas)

/-- One half-round of `multiplySingle` for one 26- or 25-bit digit `xi`:
quotient digit, first-column carry, and the shifted accumulator update; on
the high half (`dbl = true`) odd-indexed products are doubled. -/
def nofmaHalf (Y P : List ℕ) (Z : List ℕ) (xi : ℕ) (pInv mask w : ℕ)
    (dbl : Bool) : List ℕ :=
  let tmp := Z.getD 0 0 + xi * Y.getD 0 0
  let qi := computeQ tmp pInv mask
  let carry := (tmp + qi * P.getD 0 0) / 2 ^ w
  (List.range 9).map fun j0 =>
    let j := j0 + 1
    let c := if j = 1 then carry else 0
    if j ≤ 8 then
      let v := xi * Y.getD j 0 + qi * P.getD j 0
      let v := if dbl ∧ j % 2 = 1 then 2 * v else v
      Z.getD j 0 + v + c
    else
      let v := xi * Y.getD 9 0 + qi * P.getD 9 0
      if dbl then 2 * v else v

/-- One outer round of `multiplySingle`: low 26-bit half then high 25-bit
half of the limb `x_i`. -/
def nofmaRound (Y P : List ℕ) (Z : List ℕ) (xi : ℕ) : List ℕ :=
  let Z1 := nofmaHalf Y P Z (xi % 2 ^ 26) pInv26 mask26v 26 false
  nofmaHalf Y P Z1 (xi / 2 ^ 26) pInv25 mask25v 25 true

/-- The final recombination of `multiplySingle`: merge digit pairs back into
51-bit limbs with carry propagation. -/
def nofmaFinishGo : ℕ → List ℕ → ℕ → List ℕ → List ℕ
  | 0, Z, carry, acc => acc.reverse ++ [Z.getD 8 0 + carry]
  | n + 1, Z, carry, acc =>
    let i := 4 - (n + 1)
    let tmp := Z.getD (2 * i) 0 + carry + Z.getD (2 * i + 1) 0 % 2 ^ 25 * 2 ^ 26
    nofmaFinishGo n Z (tmp / 2 ^ 51 + Z.getD (2 * i + 1) 0 / 2 ^ 25)
      (tmp % 2 ^ 51 :: acc)

/-- Embedding of `multiplySingle(p, "single")` from `51x5/fma.ts` on 51-bit
limb vectors, over the Pallas modulus. -/
def multiplySingleLimbs (X51 Y51 : List ℕ) : List ℕ :=
  let Y := split2625 Y51
  let P := pallasP10
  let Z := (List.range 5).foldl
    (fun Z i => nofmaRound Y P Z (X51.getD i 0)) (List.replicate 9 0)
  nofmaFinishGo 4 Z 0 []

/-- Recombine little-endian 51-bit limbs into a bigint. -/
def fromLimbs51 (l : List ℕ) : ℕ :=
  l.foldr (fun v acc => acc * 2 ^ 51 + v) 0

/-- The integer fallback multiplication on bigints. -/
def montmulNoFmaWrapped (x y : ℕ) : ℕ :=
  fromLimbs51 (multiplySingleLimbs (toLimbs51 x) (toLimbs51 y))

/-- Value-level `reduceInline` of `51x5/field-single.ts`: subtract `p` once
when the top limb `⌊x/2^204⌋` exceeds `p`'s top limb. -/
def reduce51 (x : ℕ) : ℕ :=
  if x / 2 ^ 204 ≤ pPallas / 2 ^ 204 then x else x - pPallas

/-- Value-level `fullyReduce` of `51x5/field-single.ts`: conditional final
subtraction of `p`. -/
def fullyReduce51 (x : ℕ) : ℕ := if pPallas ≤ x then x - pPallas else x

/-- The Montgomery constant `R⁻¹ mod p` for `R = 2^255 mod p`; its defining
property is the first conjunct of `montmulFma_wrong_at_one`. -/
def RinvPallas : ℕ :=
  0x3e389fe3c44f1aae196532ddf9134cb36f8dbd877a2ff940551ec21a74ed351

set_option maxRecDepth 40000 in
/-- C2 (code bug): at the weakly-reduced inputs `x = y = 1` the FMA Montgomery
multiplication is *not* congruent to `x·y·R⁻¹ (mod p)` after reduction: the
constant `c51 = 2^51` in `51x5/common.ts` makes the raw-bits conversion of
the quotient digit decode `bits(2^51) + q'` as `2^51 + q'/2`, i.e. `qi` comes
out as `q'/2` instead of `q'` (the trick needs `2^52` there), so every
Montgomery quotient digit is wrong. The first conjunct pins `RinvPallas` as
the inverse of `R = 2^255 mod p`; the last conjunct shows the reduced output
at `(1, 1)` differs from `1·1·R⁻¹ mod p`. -/
theorem montmulFma_wrong_at_one :
    (RinvPallas * (2 ^ 255 % pPallas)) % pPallas = 1 ∧
      montMulFmaWrapped 1 1 =
        some 3332095738979126660579502311927950832621272495534017061725141343962216960300 ∧
      fullyReduce51 (reduce51
          3332095738979126660579502311927950832621272495534017061725141343962216960300)
        ≠ 1 * 1 * RinvPallas % pPallas := by
  decide

set_option maxRecDepth 40000 in
/-- C3 (code bug): the integer fallback (`multiplyNoFma`, built from
26/25-bit `multiplySingle` rounds) and the FMA multiply are *not*
bit-identical: they already disagree at `x = y = 1`. The first conjunct shows
the fallback output is exactly the true Montgomery product `1·1·R⁻¹ mod p`
at this input — so it is the FMA path that diverges (see
`montmulFma_wrong_at_one`). -/
theorem fma_noFma_differ_at_one :
    montmulNoFmaWrapped 1 1 = RinvPallas ∧
      montMulFmaWrapped 1 1 ≠ some (montmulNoFmaWrapped 1 1) := by
  decide

/-! ## Montgomery inverse (`inverse` in `51x5/inverse.ts`)

The inversion works on 5-limb field elements stored as 8-byte `i64` words
("single" layout of `field-base.ts`: limb gap 8). Limbs are modelled as
natural numbers below `2^64` (the unsigned view of the `i64` bit pattern);
signed operations (`i64.shr_s`, `i64.gt_s`) convert through the
two's-complement value. The model follows the wasm instruction by
instruction, including the byte-level effect of the two `memory.copy`
word-shift operations of `makeOdd` (which use a 4-byte stride although limbs
are 8 bytes apart) and the byte-addressed `i64.store` of `mulPow2` (which
adds the limb index `l/51` to a byte pointer). Loops take fuel and return
`none` when it runs out, so a `some` result certifies a terminating run. -/

/-- Two's-complement (signed) value of a 64-bit word. -/
def toSigned64 (x : ℕ) : ℤ := if x < 2 ^ 63 then (x : ℤ) else (x : ℤ) - 2 ^ 64

/-- `i64.add` on unsigned views. -/
def add64 (a b : ℕ) : ℕ := (a + b) % 2 ^ 64

/-- `i64.sub` on unsigned views. -/
def sub64 (a b : ℕ) : ℕ := (a + (2 ^ 64 - b % 2 ^ 64)) % 2 ^ 64

/-- `i64.shl` (shift amount taken mod 64, as in wasm). -/
def shl64 (a k : ℕ) : ℕ := a * 2 ^ (k % 64) % 2 ^ 64

/-- `i64.shr_u`. -/
def shr64u (a k : ℕ) : ℕ := a / 2 ^ (k % 64)

/-- `i64.shr_s`: arithmetic shift, i.e. floor division of the signed value. -/
def shr64s (a k : ℕ) : ℕ :=
  (((toSigned64 a).fdiv (2 ^ (k % 64))).emod (2 ^ 64)).toNat

/-- Trailing zeros of a positive number (fuel 64 suffices for a word). -/
def ctzAux : ℕ → ℕ → ℕ
  | 0, _ => 0
  | fuel + 1, n => if n % 2 = 1 then 0 else ctzAux fuel (n / 2) + 1

/-- `i64.ctz`: count of trailing zeros, 64 on the zero word. -/
def ctz64 (a : ℕ) : ℕ := if a = 0 then 64 else ctzAux 64 a

/-- The modulus as 51-bit limbs (`Field.P`). -/
def pLimbs51 : List ℕ := toLimbs51 pPallas

/-- `addCarry` of `51x5/field-single.ts`: limbwise add with signed carry
(`carry = t >> 51` arithmetic, limb `= t & mask51`); the top limb is left
unmasked. -/
def addCarryL (x y : List ℕ) : List ℕ :=
  let t0 := add64 (x.getD 0 0) (y.getD 0 0)
  let t1 := add64 (add64 (x.getD 1 0) (y.getD 1 0)) (shr64s t0 51)
  let t2 := add64 (add64 (x.getD 2 0) (y.getD 2 0)) (shr64s t1 51)
  let t3 := add64 (add64 (x.getD 3 0) (y.getD 3 0)) (shr64s t2 51)
  let t4 := add64 (add64 (x.getD 4 0) (y.getD 4 0)) (shr64s t3 51)
  [t0 % 2 ^ 51, t1 % 2 ^ 51, t2 % 2 ^ 51, t3 % 2 ^ 51, t4]

/-- `subCarry` of `51x5/field-single.ts`: limbwise subtract with signed
borrow; the top limb is left unmasked. -/
def subCarryL (x y : List ℕ) : List ℕ :=
  let t0 := sub64 (x.getD 0 0) (y.getD 0 0)
  let t1 := add64 (sub64 (x.getD 1 0) (y.getD 1 0)) (shr64s t0 51)
  let t2 := add64 (sub64 (x.getD 2 0) (y.getD 2 0)) (shr64s t1 51)
  let t3 := add64 (sub64 (x.getD 3 0) (y.getD 3 0)) (shr64s t2 51)
  let t4 := add64 (sub64 (x.getD 4 0) (y.getD 4 0)) (shr64s t3 51)
  [t0 % 2 ^ 51, t1 % 2 ^ 51, t2 % 2 ^ 51, t3 % 2 ^ 51, t4]

/-- `isGreater` of `51x5/field-single.ts`: signed limbwise comparison from
the top limb down. -/
def isGreaterL (x y : List ℕ) : Bool :=
  if toSigned64 (x.getD 4 0) > toSigned64 (y.getD 4 0) then true
  else if x.getD 4 0 ≠ y.getD 4 0 then false
  else if toSigned64 (x.getD 3 0) > toSigned64 (y.getD 3 0) then true
  else if x.getD 3 0 ≠ y.getD 3 0 then false
  else if toSigned64 (x.getD 2 0) > toSigned64 (y.getD 2 0) then true
  else if x.getD 2 0 ≠ y.getD 2 0 then false
  else if toSigned64 (x.getD 1 0) > toSigned64 (y.getD 1 0) then true
  else if x.getD 1 0 ≠ y.getD 1 0 then false
  else if toSigned64 (x.getD 0 0) > toSigned64 (y.getD 0 0) then true
  else false

/-- `isZero`: every limb word is zero. -/
def isZeroL (x : List ℕ) : Bool := x.all (· == 0)

/-- `fullyReduce` of `51x5/field-single.ts` at the limb level: unsigned
top-down comparison against `p` (falling through to the subtraction when all
limbs are equal), then a borrow-propagating subtraction of `p`. -/
def fullyReduceL (x : List ℕ) : List ℕ :=
  let ge :=
    if x.getD 4 0 < pLimbs51.getD 4 0 then false
    else if x.getD 4 0 ≠ pLimbs51.getD 4 0 then true
    else if x.getD 3 0 < pLimbs51.getD 3 0 then false
    else if x.getD 3 0 ≠ pLimbs51.getD 3 0 then true
    else if x.getD 2 0 < pLimbs51.getD 2 0 then false
    else if x.getD 2 0 ≠ pLimbs51.getD 2 0 then true
    else if x.getD 1 0 < pLimbs51.getD 1 0 then false
    else if x.getD 1 0 ≠ pLimbs51.getD 1 0 then true
    else if x.getD 0 0 < pLimbs51.getD 0 0 then false
    else true
  if ge then subCarryL x pLimbs51 else x

/-- The `u`-side of `makeOdd`'s whole-word loop. The source shifts "by whole
words" with `memory.copy(u, u+4, 16)` — a 4-byte stride although limbs are
8 bytes apart — so at the byte level only the low halves of the first two
limbs move: limb 0 becomes `(u0 >> 32) | (u1 << 32)`, limb 1 becomes
`(u1 >> 32) | (u2 << 32)`, limbs 2 and 3 stay, and limb 4 is zeroed. -/
def wordShiftU (u : List ℕ) : List ℕ :=
  [shr64u (u.getD 0 0) 32 + u.getD 1 0 % 2 ^ 32 * 2 ^ 32,
   shr64u (u.getD 1 0) 32 + u.getD 2 0 % 2 ^ 32 * 2 ^ 32,
   u.getD 2 0, u.getD 3 0, 0]

/-- The `s`-side of the whole-word loop: `memory.copy(s+4, s, 16)` moves the
byte stream up by 4 bytes, after which `s[0] = 0` overwrites the first 8
bytes; at the byte level limb 1 becomes `(s0 >> 32) | (s1 << 32)`, limb 2
keeps its high half and receives `s1`'s high half, and limbs 3, 4 stay. -/
def wordShiftS (s : List ℕ) : List ℕ :=
  [0,
   shr64u (s.getD 0 0) 32 + s.getD 1 0 % 2 ^ 32 * 2 ^ 32,
   shr64u (s.getD 1 0) 32 + s.getD 2 0 / 2 ^ 32 * 2 ^ 32,
   s.getD 3 0, s.getD 4 0]

/-- The whole-word loop of `makeOdd`: repeat the word shifts (adding 51 to
the shift count each time, although the copies move 32 bits) while the low
word of `u` is zero. -/
def makeOddLoop : ℕ → List ℕ → List ℕ → ℕ → Option (List ℕ × List ℕ × ℕ)
  | 0, _, _, _ => none
  | fuel + 1, u, s, k0 =>
    if ctz64 (u.getD 0 0) = 64 then
      makeOddLoop fuel (wordShiftU u) (wordShiftS s) (k0 + 51)
    else some (u, s, k0)

/-- Embedding of `makeOdd(u, s)` from `51x5/inverse.ts`: count trailing
zeros of the low word, shift whole words while it is 64, then shift `u`
right and `s` left by `k` bits across limbs (the `l = 51 - k` cross-limb
shift amounts are taken mod 64, as wasm does). Returns the total count `k`
and the updated `u`, `s`. -/
def makeOddL (u s : List ℕ) : Option (ℕ × List ℕ × List ℕ) :=
  if ctz64 (u.getD 0 0) = 0 then some (0, u, s)
  else
    match makeOddLoop 20 u s 0 with
    | none => none
    | some (u, s, k0) =>
      let k := ctz64 (u.getD 0 0)
      let l := (115 - k) % 64
      let m51 : ℕ := 2 ^ 51 - 1
      let u1 := [
        shr64u (u.getD 0 0) k ||| (shl64 (u.getD 1 0) l &&& m51),
        shr64u (u.getD 1 0) k ||| (shl64 (u.getD 2 0) l &&& m51),
        shr64u (u.getD 2 0) k ||| (shl64 (u.getD 3 0) l &&& m51),
        shr64u (u.getD 3 0) k ||| (shl64 (u.getD 4 0) l &&& m51),
        shr64u (u.getD 4 0) k]
      let s1 := [
        shl64 (s.getD 0 0) k &&& m51,
        (shl64 (s.getD 1 0) k &&& m51) ||| shr64u (s.getD 0 0) l,
        (shl64 (s.getD 2 0) k &&& m51) ||| shr64u (s.getD 1 0) l,
        (shl64 (s.getD 3 0) k &&& m51) ||| shr64u (s.getD 2 0) l,
        (shl64 (s.getD 4 0) k &&& m51) ||| shr64u (s.getD 3 0) l]
      some (k0 + k, u1, s1)

/-- The main loop of `almostInverse`: if `u > v` (signed limb comparison)
subtract `v` from `u`, add `s` into `r` and make `u` odd; otherwise subtract
`u` from `v`, add `r` into `s`, break when `v` became zero, else make `v`
odd. -/
def almostInvLoop : ℕ → List ℕ → List ℕ → List ℕ → List ℕ → ℕ →
    Option (List ℕ × ℕ)
  | 0, _, _, _, _, _ => none
  | fuel + 1, u, v, r, s, k =>
    if isGreaterL u v then
      let u1 := subCarryL u v
      let r1 := addCarryL r s
      match makeOddL u1 s with
      | none => none
      | some (t, u2, s2) => almostInvLoop fuel u2 v r1 s2 (k + t)
    else
      let v1 := subCarryL v u
      let s1 := addCarryL s r
      if isZeroL v1 then some (r, k)
      else
        match makeOddL v1 r with
        | none => none
        | some (t, v2, r2) => almostInvLoop fuel u v2 r2 s1 (k + t)

/-- Embedding of `almostInverse(u, r, a)` from `51x5/inverse.ts`:
`u = p, v = a, r = 0, s = 1`, two initial `makeOdd` calls, then the main
loop. Returns the final `r` and shift count `k`. -/
def almostInverseL (a : List ℕ) : Option (List ℕ × ℕ) :=
  match makeOddL pLimbs51 [1, 0, 0, 0, 0] with
  | none => none
  | some (k1, u, s) =>
    match makeOddL a [0, 0, 0, 0, 0] with
    | none => none
    | some (k2, v, r) => almostInvLoop 200 u v r s (k1 + k2)

/-- The field element written by `mulPow2`'s store of `1 << (l % 51)` at
byte address `scratch + l/51` (a byte offset where a limb offset `8·(l/51)`
was intended): with the 8-byte limb stride the set bit lands at stream-bit
position `b = 8·(l/51) + l % 51`, i.e. in limb `b/64` at bit `b % 64`. -/
def mulPow2ScratchL (l : ℕ) : List ℕ :=
  let b := l % 51 + 8 * (l / 51)
  (List.range 5).map fun i => if i = b / 64 then 2 ^ (b % 64) else 0

/-- `R2corr = 2^(4K - 2N + 1) mod p` with `K = 5·51 = 255` and
`N = log2(p) = 255` (the source's own comment: `N` = bit length of `p`;
`util.js` is not in the snapshot). -/
def r2corrPallas : ℕ := 2 ^ (4 * 255 - 2 * 255 + 1) % pPallas

/-- Embedding of `inverse(scratch, r, a)` from `51x5/inverse.ts`:
`fullyReduce(a)`; trap (`none`) when `a` is zero; `almostInverse`;
`r ← p - r`; `l = 2N - 1 - k`; multiply by the `mulPow2` scratch value and
by `R2corr` with the kernel's single-lane Montgomery multiplication. -/
def kaliskiInverse (a : ℕ) : Option ℕ :=
  let aL := fullyReduceL (toLimbs51 a)
  if isZeroL aL then none
  else
    match almostInverseL aL with
    | none => none
    | some (r, k) =>
      let r1 := subCarryL pLimbs51 r
      let l := 2 * 255 - 1 - k
      let r2 := multiplySingleLimbs r1 (mulPow2ScratchL l)
      let r3 := multiplySingleLimbs r2 (toLimbs51 r2corrPallas)
      some (fromLimbs51 r3)

set_option exponentiation.threshold 600 in
set_option maxRecDepth 40000 in
/-- C7 (code bug): `inverse` terminates normally on the nonzero input
`src = 1` (so the trap behaviour is not at issue there), but its output is
not the Montgomery inverse: `fullyReduce(mul(src, inverse(src)))` comes out
as `2^46`, not the Montgomery form of 1 (`R mod p = 2^255 mod p`). Two
independent defects feed this: `mulPow2` adds the limb index `l/51` to a
byte pointer (so it multiplies by `2^(8·(l/51) + l%51)` re-read through the
8-byte limb layout instead of by `2^l`), and `makeOdd`'s whole-word loop
copies with a 4-byte stride over 8-byte limbs while still adding 51 to `k`
per iteration (the file is marked `TODO: untested, WIP`). The product is
taken with the kernel's correct integer Montgomery multiplication. -/
theorem inverse_wrong_at_one :
    kaliskiInverse 1 =
        some 0x3fffffffffffffffffffeedcb381fb59a5b8cc6570d6791b992cb0ed00000001 ∧
      fullyReduce51 (montmulNoFmaWrapped 1
          0x3fffffffffffffffffffeedcb381fb59a5b8cc6570d6791b992cb0ed00000001)
        ≠ 2 ^ 255 % pPallas := by
  decide

/-! ## The MSM pipeline (`msm` in the main MSM implementation)

A model of the single-threaded (`THREADS = 1`) execution of `msm` over an
abstract additive commutative group `P` of curve points: the batched affine
additions, projective additions and doublings are taken as the group
operation (their agreement with the group law on the curve is the subject of
the batch-affine sections above), while the orchestration is embedded from
the source: the signed windowing (the slicing loop, shared with the windowing
section above), the assignment of each signed point to its bucket as laid
out by the counting sort (`integrateBucketCounts` / `sortPoints` produce,
for every partition `k` and label `l ≥ 1`, the contiguous, input-ordered run
of bucket points that `bucketList` describes), the pairing tree of the
bucket-accumulation stage (`for m = 1; m < maxBucketSize; m *= 2` with pairs
`(i·2m, i·2m + m)` inside each bucket), the triangle/row bucket reduction
(`reduceBucketsColumnProjective` with the single chunk `lstart = 1` that
`computeBucketsSplit` yields for one thread, making the final double-and-add
of `(lstart-1)·row` a no-op), and the Horner combination of the partition
sums (`c` doublings then add, from partition `K-1` down to 0). GLV
preparation (`preparePointsAndScalars`) stores, per input `(s, G)`, the half
scalars `s0, s1` and base points `A = (-1)^sign0·G`,
`B = (-1)^sign1·endo(G)`, with each point's negation stored beside it;
`decompose` itself lives in `scalar-glv.js` (not in the snapshot), so the
correctness theorem takes the decomposition function abstractly together
with its defining congruence `s ≡ (-1)^sign0·s0 + λ·(-1)^sign1·s1 (mod q)`,
the endomorphism equation `endo(G) = λ·G`, and `q`-torsion of the input
points as hypotheses. -/

section MsmPipeline

variable {P : Type} [AddCommGroup P]

/-- Outgoing carry after processing `count` windows starting at window `k`
of the slicing loop. -/
def sliceCarryOut (c s : ℕ) : ℕ → ℕ → ℕ → ℕ
  | 0, _, carry => carry
  | count + 1, k, carry =>
    sliceCarryOut c s count (k + 1) (sliceStep c s k carry).2

/-- The signed digit a stored slice word denotes: `-label` when the sign bit
is set (the kernel then uses the point's stored negation), else `label`. -/
def wDigit (w : ℕ) : ℤ :=
  if sliceCarry w = 1 then -(sliceLabel w : ℤ) else (sliceLabel w : ℤ)

/-- Weighted digit sum `Σ digit_k · 2^(c·k)` of a list of slice words. -/
def digitSum (c : ℕ) : List ℕ → ℤ
  | [] => 0
  | w :: rest => wDigit w + 2 ^ c * digitSum c rest

/-- The `k`-th stored slice word of scalar `t` (`scalarSlices[k][i]`). -/
def windowWord (c K t k : ℕ) : ℕ := (sliceWindows c K t).getD k 0

/-- The point `sortPoints` copies into the bucket: the stored negation when
the slice's sign bit is set (`ptr = carry === 1 ? negPoint : point`). -/
def signedPoint (w : ℕ) (pt : P) : P :=
  if sliceCarry w = 1 then -pt else pt

/-- Contents of bucket `(k, l)` after the counting sort: the signed points of
the half scalars whose `k`-th slice has label `l`, in input order. -/
def bucketList (c K : ℕ)
    (halves : List (ℕ × P)) (k l : ℕ) : List P :=
  halves.filterMap fun tp =>
    if sliceLabel (windowWord c K tp.1 k) = l then
      some (signedPoint (windowWord c K tp.1 k) tp.2)
    else none

/-- The maximum bucket size over all partitions and labels `l ∈ [1, L]`
(`maxBucketSize` of the source, the bound of the accumulation loop). -/
def maxBucketSize (c K L : ℕ)
    (halves : List (ℕ × P)) : ℕ :=
  ((List.range K).map fun k =>
    ((List.range L).map fun l0 =>
      (bucketList c K halves k (l0 + 1)).length).foldr max 0).foldr max 0

/-- One bucket-accumulation pass with stride `m`: each pair
`(i·2m, i·2m + m)` is batch-added into its first element; entries beyond the
bucket length are zero, so the out-of-range guard of the source is the
addition of zero. -/
def accumPass (m : ℕ) (b : ℕ → P) : ℕ → P :=
  fun i => if i % (2 * m) = 0 then b i + b (i + m) else b i

/-- The accumulation loop `for (m = 1; m < maxBucketSize; m *= 2)`,
fuel-based (fuel `maxB` always suffices since `m` doubles). -/
def accumLoop : ℕ → ℕ → ℕ → (ℕ → P) → (ℕ → P)
  | 0, _, _, b => b
  | fuel + 1, m, maxB, b =>
    if m < maxB then accumLoop fuel (2 * m) maxB (accumPass m b) else b

/-- The head of a bucket after the accumulation loop (the value
`normalizeBucketsStorage` copies out; an empty bucket yields zero). -/
def accumBucket (maxB : ℕ) (b : ℕ → P) : P :=
  accumLoop maxB 1 maxB b 0

/-- The triangle/row loop of `reduceBucketsColumnProjective`:
`row += b[l]; triangle += row` for `l = L-1` down to `0`. -/
def triangleFold (bs : List P) : P × P :=
  bs.foldr (fun bl rt => (rt.1 + bl, rt.2 + (rt.1 + bl))) (0, 0)

/-- The column (partition sum) of partition `k`: normalized bucket heads for
`l = 1..L` reduced by the triangle/row loop (with `lstart = 1`, the
`(lstart-1)·row` double-and-add of the source is a no-op). -/
def columnSum (c K L maxB : ℕ)
    (halves : List (ℕ × P)) (k : ℕ) : P :=
  (triangleFold ((List.range L).map fun l0 =>
    accumBucket maxB fun i => (bucketList c K halves k (l0 + 1)).getD i 0)).2

/-- `n` in-place doublings (`doubleInPlaceProjective` iterated). -/
def doubleNTimes : ℕ → P → P
  | 0, x => x
  | n + 1, x => doubleNTimes n (x + x)

/-- The final-sum loop of `msm`: starting from partition `K-1`, double `c`
times and add the next partition sum. -/
def hornerCombine (c : ℕ) : List P → P
  | [] => 0
  | x :: rest => doubleNTimes c (hornerCombine c rest) + x

/-- The MSM pipeline on prepared half scalars and base points: slice, sort
into buckets, accumulate, reduce columns, Horner-combine. -/
def msmModel (c K L : ℕ)
    (halves : List (ℕ × P)) : P :=
  hornerCombine c ((List.range K).map fun k =>
    columnSum c K L (maxBucketSize c K L halves) halves k)

/-- The GLV preparation (`preparePointsAndScalars`): each input `(s, G)`
contributes the half pairs `(s0, (-1)^sign0 · G)` and
`(s1, (-1)^sign1 · endo(G))`, interleaved in input order. -/
def glvHalves (dec : ℕ → ℕ × ℕ × Bool × Bool)
    (endo : P → P) (inputs : List (ℕ × P)) : List (ℕ × P) :=
  inputs.foldr (fun sg acc =>
    ((dec sg.1).1, if (dec sg.1).2.2.1 then -sg.2 else sg.2) ::
    ((dec sg.1).2.1, if (dec sg.1).2.2.2 then -(endo sg.2) else endo sg.2) ::
    acc) []

/-- The accumulation-stage schedule of `msm`: one entry `(m, flag)` per pass
of `for (m = 1; m < maxBucketSize; m *= 2)`, where `flag` records whether
the pass calls the safe `batchAdd` (`useSafeAdditions = true`) or
`batchAddUnsafe`; the source consults the single per-MSM option
`useSafeAdditions` (default `true`) on every pass. -/
def passLogAux : ℕ → ℕ → ℕ → Bool → List (ℕ × Bool)
  | 0, _, _, _ => []
  | fuel + 1, m, maxB, f =>
    if m < maxB then (m, f) :: passLogAux fuel (2 * m) maxB f else []

/-- The full pass schedule for one `msm` call with flag `useSafe` and the
given `maxBucketSize`. -/
def msmAccumPassLog (useSafe : Bool) (maxB : ℕ) : List (ℕ × Bool) :=
  passLogAux maxB 1 maxB useSafe

theorem le_foldr_max (l : List ℕ) : ∀ x ∈ l, x ≤ l.foldr max 0 := by
  induction l with
  | nil => intro x hx; simp at hx
  | cons a t ih =>
    intro x hx
    rcases List.mem_cons.mp hx with rfl | hx
    · exact le_max_left _ _
    · exact le_trans (ih x hx) (le_max_right _ _)

theorem sum_range_even_odd {M : Type} [AddCommMonoid M] (f : ℕ → M) (n : ℕ) :
    ∑ s ∈ Finset.range (2 * n), f s
      = ∑ t ∈ Finset.range n, f (2 * t) + ∑ t ∈ Finset.range n, f (2 * t + 1) := by
  induction n with
  | zero => simp
  | succ n ih =>
    have h2 : 2 * (n + 1) = 2 * n + 1 + 1 := by ring
    rw [h2, Finset.sum_range_succ, Finset.sum_range_succ, ih,
      Finset.sum_range_succ (fun t => f (2 * t)),
      Finset.sum_range_succ (fun t => f (2 * t + 1))]
    abel

theorem accumPass_apply_mul (m t : ℕ) (b : ℕ → P) :
    accumPass m b (2 * m * t) = b (2 * m * t) + b (2 * m * t + m) := by
  have : (2 * m * t) % (2 * m) = 0 := by
    rw [Nat.mul_mod_right]
  simp [accumPass, this]

theorem accumPass_support {m len : ℕ} (b : ℕ → P)
    (hb : ∀ i, len ≤ i → b i = 0) :
    ∀ i, len ≤ i → accumPass m b i = 0 := by
  intro i hi
  unfold accumPass
  split
  · rw [hb i hi, hb (i + m) (by omega), add_zero]
  · exact hb i hi

theorem accumPass_stride (m n len : ℕ) (hm : 1 ≤ m) (hn : len ≤ n)
    (b : ℕ → P) (hb : ∀ i, len ≤ i → b i = 0) :
    ∑ t ∈ Finset.range n, accumPass m b (2 * m * t)
      = ∑ t ∈ Finset.range n, b (m * t) := by
  have h1 : ∑ t ∈ Finset.range n, accumPass m b (2 * m * t)
      = ∑ t ∈ Finset.range n, (b (m * (2 * t)) + b (m * (2 * t + 1))) := by
    refine Finset.sum_congr rfl fun t _ => ?_
    rw [accumPass_apply_mul]
    congr 2 <;> ring
  rw [h1, Finset.sum_add_distrib, ← sum_range_even_odd (fun s => b (m * s)) n]
  symm
  apply Finset.sum_subset
  · exact Finset.range_subset.mpr (by omega)
  · intro s hs hns
    apply hb
    have hsn : n ≤ s := by
      simp only [Finset.mem_range] at hns
      omega
    calc len ≤ n := hn
      _ ≤ s := hsn
      _ ≤ m * s := Nat.le_mul_of_pos_left s hm

theorem stride_head (m n len : ℕ) (hn1 : 1 ≤ n) (hml : len ≤ m)
    (b : ℕ → P) (hb : ∀ i, len ≤ i → b i = 0) :
    ∑ t ∈ Finset.range n, b (m * t) = b 0 := by
  have h := Finset.sum_eq_single_of_mem (f := fun t => b (m * t)) 0
    (Finset.mem_range.mpr hn1) ?_
  · simpa using h
  · intro t _ ht
    apply hb
    calc len ≤ m := hml
      _ ≤ m * t := Nat.le_mul_of_pos_right m (by omega)

theorem accumLoop_head (n len maxB : ℕ) (total : P)
    (hn1 : 1 ≤ n) (hnlen : len ≤ n) (hlenB : len ≤ maxB) :
    ∀ fuel m (b : ℕ → P), 1 ≤ m → maxB ≤ m * 2 ^ fuel →
      (∀ i, len ≤ i → b i = 0) →
      (∑ t ∈ Finset.range n, b (m * t)) = total →
      accumLoop fuel m maxB b 0 = total := by
  intro fuel
  induction fuel with
  | zero =>
    intro m b hm hexp hb hsum
    simp only [accumLoop]
    have hml : len ≤ m := by simpa using le_trans hlenB hexp
    rw [← hsum, stride_head m n len hn1 hml b hb]
  | succ fuel ih =>
    intro m b hm hexp hb hsum
    simp only [accumLoop]
    split
    · apply ih (2 * m) (accumPass m b) (by omega)
      · calc maxB ≤ m * 2 ^ (fuel + 1) := hexp
          _ = 2 * m * 2 ^ fuel := by ring
      · exact accumPass_support b hb
      · rw [accumPass_stride m n len hm hnlen b hb]; exact hsum
    · rename_i hnotlt
      have hml : len ≤ m := by omega
      rw [← hsum, stride_head m n len hn1 hml b hb]

theorem sum_range_getD (l : List P) :
    ∑ i ∈ Finset.range l.length, l.getD i 0 = l.sum := by
  induction l with
  | nil => simp
  | cons x xs ih =>
    rw [List.length_cons, Finset.sum_range_succ']
    simp only [List.getD_cons_succ, List.getD_cons_zero]
    rw [ih, List.sum_cons, add_comm]

theorem accumBucket_list (maxB : ℕ) (l : List P) (h : l.length ≤ maxB) :
    accumBucket maxB (fun i => l.getD i 0) = l.sum := by
  unfold accumBucket
  refine accumLoop_head (l.length + 1) l.length maxB l.sum (by omega) (by omega)
    h maxB 1 _ (by omega) ?_ ?_ ?_
  · have h2 : maxB < 2 ^ maxB := Nat.lt_two_pow maxB
    omega
  · intro i hi
    exact List.getD_eq_default _ _ hi
  · rw [Finset.sum_range_succ]
    simp only [one_mul]
    rw [List.getD_eq_default _ _ (by omega), add_zero]
    exact sum_range_getD l

theorem triangleFold_spec (bs : List P) :
    (triangleFold bs).1 = bs.sum ∧
      (triangleFold bs).2 = ∑ i ∈ Finset.range bs.length, (i + 1) • bs.getD i 0 := by
  induction bs with
  | nil => simp [triangleFold]
  | cons b rest ih =>
    obtain ⟨ih1, ih2⟩ := ih
    have hfold : triangleFold (b :: rest)
        = ((triangleFold rest).1 + b,
           (triangleFold rest).2 + ((triangleFold rest).1 + b)) := rfl
    constructor
    · rw [hfold, ih1, List.sum_cons, add_comm]
    · rw [hfold, ih1, ih2, List.length_cons, Finset.sum_range_succ']
      simp only [List.getD_cons_succ, List.getD_cons_zero]
    -- goal: Σ (i+1)•rest_i + (rest.sum + b) = Σ (i+1+1)•rest_i + 1•b
      have hterm : ∀ i : ℕ, (i + 1 + 1) • rest.getD i 0
          = (i + 1) • rest.getD i 0 + rest.getD i 0 := by
        intro i
        rw [succ_nsmul]
      rw [Finset.sum_congr rfl (fun i _ => hterm i), Finset.sum_add_distrib,
        sum_range_getD]
      simp only [zero_add, one_smul]
      abel

theorem mod_mul_decompose (x b c : ℕ) :
    x % (b * c) = x % b + b * (x / b % c) := by
  have h1 := Nat.div_add_mod (x % (b * c)) b
  rw [Nat.mod_mul_right_div_self, Nat.mod_mod_of_dvd _ (Dvd.intro c rfl)] at h1
  omega

theorem extract_decompose (c s k count : ℕ) :
    (s / 2 ^ (c * k)) % 2 ^ (c * (count + 1))
      = extractBitSlice s (k * c) c
        + 2 ^ c * ((s / 2 ^ (c * (k + 1))) % 2 ^ (c * count)) := by
  have hdd : s / 2 ^ (c * (k + 1)) = s / 2 ^ (c * k) / 2 ^ c := by
    rw [Nat.div_div_eq_div_mul, ← pow_add]
    congr 1
  have hsplit : c * (count + 1) = c + c * count := by ring
  rw [hsplit, pow_add, mod_mul_decompose, hdd, extractBitSlice,
    Nat.mul_comm c k]

theorem sliceStep_digit {c : ℕ} (hc1 : 1 ≤ c) (hc2 : c ≤ 31)
    (s k carry : ℕ) (hcar : carry ≤ 1) :
    wDigit (sliceStep c s k carry).1
        = (extractBitSlice s (k * c) c + carry : ℤ)
          - ((sliceStep c s k carry).2 : ℤ) * 2 ^ c ∧
      (sliceStep c s k carry).2 ≤ 1 := by
  have hL2 : 2 * 2 ^ (c - 1) = 2 ^ c := by
    rw [← pow_succ']
    congr 1
    omega
  have hx := extractBitSlice s (k * c) c
  have hxlt : extractBitSlice s (k * c) c < 2 ^ c :=
    Nat.mod_lt _ (Nat.pos_pow_of_pos _ (by norm_num))
  have hL31 : 2 ^ (c - 1) < 2 ^ 31 :=
    Nat.pow_lt_pow_right (by norm_num) (by omega)
  simp only [sliceStep]
  split
  · rename_i hgt
    set l := extractBitSlice s (k * c) c + carry with hldef
    have hl2c : l ≤ 2 ^ c := by omega
    set m := 2 * 2 ^ (c - 1) - l with hm
    have hm31 : m < 2 ^ 31 := by omega
    have hw : m ||| 1 <<< 31 = m + 2 ^ 31 := by
      rw [Nat.one_shiftLeft, lor_two_pow_eq_add hm31]
    have hlab : sliceLabel (m ||| 1 <<< 31) = m := by
      rw [sliceLabel, hw, Nat.add_mod_right, Nat.mod_eq_of_lt hm31]
    have hcarb : sliceCarry (m ||| 1 <<< 31) = 1 := by
      rw [sliceCarry, hw,
        Nat.add_div_right _ (Nat.pos_pow_of_pos _ (by norm_num)),
        Nat.div_eq_of_lt hm31]
    refine ⟨?_, le_refl 1⟩
    rw [wDigit, hcarb, if_pos rfl, hlab]
    have : (m : ℤ) = 2 ^ c - l := by
      rw [hm, hL2]
      push_cast [hl2c]
      ring
    rw [this]
    push_cast
    omega
  · rename_i hle
    push_neg at hle
    set l := extractBitSlice s (k * c) c + carry with hldef
    have hl31 : l < 2 ^ 31 := by omega
    have hlab : sliceLabel l = l := Nat.mod_eq_of_lt hl31
    have hcarb : sliceCarry l = 0 := by
      rw [sliceCarry, Nat.div_eq_of_lt hl31]
    refine ⟨?_, by omega⟩
    rw [wDigit, hcarb, if_neg (by omega), hlab]
    push_cast
    omega

theorem recodeAux {c : ℕ} (hc1 : 1 ≤ c) (hc2 : c ≤ 31) (s : ℕ) :
    ∀ count k carry, carry ≤ 1 →
      digitSum c (sliceWindowsAux c s count k carry)
        = ((s / 2 ^ (c * k)) % 2 ^ (c * count) : ℕ) + (carry : ℤ)
          - (sliceCarryOut c s count k carry : ℤ) * 2 ^ (c * count) := by
  intro count
  induction count with
  | zero =>
    intro k carry hcar
    simp [sliceWindowsAux, digitSum, sliceCarryOut]
  | succ count ih =>
    intro k carry hcar
    have hstep := sliceStep_digit hc1 hc2 s k carry hcar
    have hrec : sliceWindowsAux c s (count + 1) k carry
        = (sliceStep c s k carry).1
          :: sliceWindowsAux c s count (k + 1) (sliceStep c s k carry).2 := rfl
    have hout : sliceCarryOut c s (count + 1) k carry
        = sliceCarryOut c s count (k + 1) (sliceStep c s k carry).2 := rfl
    rw [hrec, hout, digitSum, ih (k + 1) (sliceStep c s k carry).2 hstep.2,
      hstep.1]
    have hpow : ((2 : ℤ)) ^ c * 2 ^ (c * count) = 2 ^ (c * (count + 1)) := by
      rw [← pow_add]
      congr 1
      ring
    have hdecz : ((s / 2 ^ (c * k) % 2 ^ (c * (count + 1)) : ℕ) : ℤ)
        = (extractBitSlice s (k * c) c : ℤ)
          + 2 ^ c * ((s / 2 ^ (c * (k + 1)) % 2 ^ (c * count) : ℕ) : ℤ) := by
      exact_mod_cast extract_decompose c s k count
    rw [hdecz, ← hpow]
    ring

theorem sliceCarryOut_zero {c : ℕ} (hc1 : 1 ≤ c) (hc2 : c ≤ 31) (s : ℕ) :
    ∀ count k carry, carry ≤ 1 → 1 ≤ count →
      s / 2 ^ (c * k) < 2 ^ (c * count - 1) →
      sliceCarryOut c s count k carry = 0 := by
  intro count
  induction count with
  | zero => intro k carry _ h1; omega
  | succ count ih =>
    intro k carry hcar _ hbound
    rcases Nat.eq_zero_or_pos count with rfl | hpos
    · have hext : extractBitSlice s (k * c) c = s / 2 ^ (c * k) := by
        rw [extractBitSlice, Nat.mul_comm k c, Nat.mod_eq_of_lt]
        calc s / 2 ^ (c * k) < 2 ^ (c * 1 - 1) := hbound
          _ ≤ 2 ^ c := Nat.pow_le_pow_right (by norm_num) (by omega)
      have hb2 : s / 2 ^ (c * k) < 2 ^ (c - 1) := by
        have he : c * 1 - 1 = c - 1 := by omega
        rw [he] at hbound
        exact hbound
      show (sliceStep c s k carry).2 = 0
      simp only [sliceStep]
      rw [if_neg (by omega)]
    · have hcar2 : (sliceStep c s k carry).2 ≤ 1 :=
        (sliceStep_digit hc1 hc2 s k carry hcar).2
      show sliceCarryOut c s count (k + 1) (sliceStep c s k carry).2 = 0
      apply ih (k + 1) _ hcar2 hpos
      have hdd : s / 2 ^ (c * (k + 1)) = s / 2 ^ (c * k) / 2 ^ c := by
        rw [Nat.div_div_eq_div_mul, ← pow_add]
        congr 1
      rw [hdd]
      apply Nat.div_lt_of_lt_mul
      calc s / 2 ^ (c * k) < 2 ^ (c * (count + 1) - 1) := hbound
        _ = 2 ^ c * 2 ^ (c * count - 1) := by
          rw [← pow_add]
          congr 1
          have h1 : c * (count + 1) = c + c * count := by ring
          have h2 : 1 ≤ c * count := Nat.mul_pos (by omega) hpos
          omega

theorem recode_eq {c : ℕ} (hc1 : 1 ≤ c) (hc2 : c ≤ 31) (K s : ℕ)
    (hs : s < 2 ^ (c * K - 1)) :
    digitSum c (sliceWindows c K s) = s := by
  rcases Nat.eq_zero_or_pos K with rfl | hK
  · have : s = 0 := by simpa using hs
    simp [this, sliceWindows, sliceWindowsAux, digitSum]
  · have hout := sliceCarryOut_zero hc1 hc2 s K 0 0 (by omega) hK
      (by simpa using hs)
    have h := recodeAux hc1 hc2 s K 0 0 (by omega)
    rw [sliceWindows, h, hout]
    have hsK : s < 2 ^ (c * K) := by
      calc s < 2 ^ (c * K - 1) := hs
        _ ≤ 2 ^ (c * K) := Nat.pow_le_pow_right (by norm_num) (by omega)
    simp [Nat.mod_eq_of_lt hsK]

theorem sliceWindowsAux_length (c s : ℕ) :
    ∀ count k carry, (sliceWindowsAux c s count k carry).length = count := by
  intro count
  induction count with
  | zero => intro k carry; rfl
  | succ n ih => intro k carry; simp [sliceWindowsAux, ih]

theorem digitSum_eq_indexed (c : ℕ) (ws : List ℕ) :
    digitSum c ws
      = ∑ k ∈ Finset.range ws.length, (2 : ℤ) ^ (c * k) * wDigit (ws.getD k 0) := by
  induction ws with
  | nil => simp [digitSum]
  | cons w rest ih =>
    rw [digitSum, ih, List.length_cons, Finset.sum_range_succ']
    simp only [List.getD_cons_succ, List.getD_cons_zero]
    rw [Finset.mul_sum]
    have hterm : ∀ k : ℕ,
        (2 : ℤ) ^ c * ((2 : ℤ) ^ (c * k) * wDigit (rest.getD k 0))
          = (2 : ℤ) ^ (c * (k + 1)) * wDigit (rest.getD k 0) := by
      intro k
      rw [← mul_assoc, ← pow_add]
      congr 2
      ring
    rw [Finset.sum_congr rfl fun k _ => hterm k]
    have h0 : (2 : ℤ) ^ (c * 0) * wDigit w = wDigit w := by
      norm_num
    rw [h0]
    ring

theorem sliceWindows_label_le {c : ℕ} (hc1 : 1 ≤ c) (hc2 : c ≤ 31)
    (K t k : ℕ) : sliceLabel (windowWord c K t k) ≤ 2 ^ (c - 1) := by
  rcases Nat.lt_or_ge k K with hk | hk
  · have hlen : (sliceWindows c K t).length = K := sliceWindowsAux_length c t K 0 0
    have hmem : (sliceWindows c K t).getD k 0 ∈ sliceWindows c K t := by
      rw [List.getD_eq_getElem?_getD]
      have : (sliceWindows c K t)[k]? = some (sliceWindows c K t)[k] := by
        rw [List.getElem?_eq_getElem (by omega)]
      rw [this]
      exact List.getElem_mem _
    exact sliceWindowsAux_label_le hc1 hc2 t K 0 0 _ hmem
  · have : windowWord c K t k = 0 := by
      rw [windowWord, List.getD_eq_getElem?_getD, List.getElem?_eq_none]
      · rfl
      · rw [show (sliceWindows c K t).length = K from
          sliceWindowsAux_length c t K 0 0]
        omega
    rw [this]
    simp [sliceLabel]

theorem bucketList_length_le (c K L : ℕ) (halves : List (ℕ × P))
    {k l0 : ℕ} (hk : k < K) (hl : l0 < L) :
    (bucketList c K halves k (l0 + 1)).length ≤ maxBucketSize c K L halves := by
  have h1 : (bucketList c K halves k (l0 + 1)).length
      ≤ ((List.range L).map fun l0 =>
          (bucketList c K halves k (l0 + 1)).length).foldr max 0 :=
    le_foldr_max _ _ (List.mem_map.mpr ⟨l0, List.mem_range.mpr hl, rfl⟩)
  have h2 : ((List.range L).map fun l0 =>
        (bucketList c K halves k (l0 + 1)).length).foldr max 0
      ≤ maxBucketSize c K L halves :=
    le_foldr_max _ _ (List.mem_map.mpr ⟨k, List.mem_range.mpr hk, rfl⟩)
  exact le_trans h1 h2

theorem getD_map_range {f : ℕ → P} {L i : ℕ} (hi : i < L) :
    ((List.range L).map f).getD i 0 = f i := by
  rw [List.getD_eq_getElem?_getD, List.getElem?_eq_getElem (by simpa using hi)]
  simp

theorem sum_ite_label (label L : ℕ) (hlab : label ≤ L) (sp : P) :
    ∑ l0 ∈ Finset.range L, (if label = l0 + 1 then (l0 + 1) • sp else 0)
      = label • sp := by
  rcases Nat.eq_zero_or_pos label with rfl | hpos
  · rw [Finset.sum_eq_zero]
    · simp
    · intro l0 _
      rw [if_neg (by omega)]
  · rw [Finset.sum_eq_single_of_mem (label - 1) (Finset.mem_range.mpr (by omega))]
    · rw [if_pos (by omega)]
      congr 1
      omega
    · intro l0 _ hne
      rw [if_neg (by omega)]

theorem fiber_sum {c : ℕ} (hc1 : 1 ≤ c) (hc2 : c ≤ 31) (K L : ℕ)
    (hL : 2 ^ (c - 1) ≤ L) (halves : List (ℕ × P)) (k : ℕ) :
    ∑ l0 ∈ Finset.range L, (l0 + 1) • (bucketList c K halves k (l0 + 1)).sum
      = (halves.map fun tp =>
          sliceLabel (windowWord c K tp.1 k)
            • signedPoint (windowWord c K tp.1 k) tp.2).sum := by
  induction halves with
  | nil => simp [bucketList]
  | cons tp rest ih =>
    have hcons : ∀ l, bucketList c K (tp :: rest) k l
        = if sliceLabel (windowWord c K tp.1 k) = l then
            signedPoint (windowWord c K tp.1 k) tp.2 :: bucketList c K rest k l
          else bucketList c K rest k l := by
      intro l
      by_cases h : sliceLabel (windowWord c K tp.1 k) = l <;>
        simp [bucketList, List.filterMap_cons, h]
    have hsummand : ∀ l0 : ℕ,
        (l0 + 1) • (bucketList c K (tp :: rest) k (l0 + 1)).sum
          = (l0 + 1) • (bucketList c K rest k (l0 + 1)).sum
            + (if sliceLabel (windowWord c K tp.1 k) = l0 + 1 then
                (l0 + 1) • signedPoint (windowWord c K tp.1 k) tp.2 else 0) := by
      intro l0
      rw [hcons (l0 + 1)]
      by_cases h : sliceLabel (windowWord c K tp.1 k) = l0 + 1
      · rw [if_pos h, if_pos h, List.sum_cons, smul_add]
        abel
      · rw [if_neg h, if_neg h, add_zero]
    rw [Finset.sum_congr rfl fun l0 _ => hsummand l0, Finset.sum_add_distrib,
      ih, sum_ite_label _ L
        (le_trans (sliceWindows_label_le hc1 hc2 K tp.1 k) hL),
      List.map_cons, List.sum_cons]
    abel

theorem columnSum_eq {c : ℕ} (K L : ℕ) (halves : List (ℕ × P)) {k : ℕ}
    (hk : k < K) :
    columnSum c K L (maxBucketSize c K L halves) halves k
      = ∑ l0 ∈ Finset.range L,
          (l0 + 1) • (bucketList c K halves k (l0 + 1)).sum := by
  rw [columnSum, (triangleFold_spec _).2]
  have hlen : ((List.range L).map fun l0 =>
      accumBucket (maxBucketSize c K L halves) fun i =>
        (bucketList c K halves k (l0 + 1)).getD i 0).length = L := by
    simp
  rw [hlen]
  refine Finset.sum_congr rfl fun i hi => ?_
  have hiL : i < L := Finset.mem_range.mp hi
  rw [getD_map_range hiL,
    accumBucket_list _ _ (bucketList_length_le c K L halves hk hiL)]

theorem doubleNTimes_eq (n : ℕ) (x : P) : doubleNTimes n x = 2 ^ n • x := by
  induction n generalizing x with
  | zero => simp [doubleNTimes]
  | succ n ih =>
    rw [doubleNTimes, ih (x + x), ← two_nsmul, smul_smul, pow_succ]

theorem hornerCombine_eq (c : ℕ) (cols : List P) :
    hornerCombine c cols
      = ∑ k ∈ Finset.range cols.length, 2 ^ (c * k) • cols.getD k 0 := by
  induction cols with
  | nil => simp [hornerCombine]
  | cons x rest ih =>
    rw [hornerCombine, ih, doubleNTimes_eq, List.length_cons,
      Finset.sum_range_succ']
    simp only [List.getD_cons_succ, List.getD_cons_zero]
    rw [Finset.smul_sum]
    have hterm : ∀ k : ℕ, 2 ^ c • (2 ^ (c * k) • rest.getD k 0)
        = 2 ^ (c * (k + 1)) • rest.getD k 0 := by
      intro k
      rw [smul_smul, ← pow_add]
      congr 2
      ring
    rw [Finset.sum_congr rfl fun k _ => hterm k]
    norm_num

theorem sum_map_exchange {A : Type} (K : ℕ) (f : ℕ → A → P) (l : List A) :
    ∑ k ∈ Finset.range K, (l.map (f k)).sum
      = (l.map fun a => ∑ k ∈ Finset.range K, f k a).sum := by
  induction l with
  | nil => simp
  | cons a t ih =>
    simp [List.map_cons, List.sum_cons, Finset.sum_add_distrib, ih]

theorem perHalf_digit {c : ℕ} (hc1 : 1 ≤ c) (hc2 : c ≤ 31) (K : ℕ)
    (t : ℕ) (pt : P) (ht : t < 2 ^ (c * K - 1)) :
    ∑ k ∈ Finset.range K,
        2 ^ (c * k) • (sliceLabel (windowWord c K t k)
          • signedPoint (windowWord c K t k) pt)
      = (t : ℤ) • pt := by
  have h1 : ∀ w : ℕ, (sliceLabel w) • signedPoint w pt = wDigit w • pt := by
    intro w
    rw [signedPoint, wDigit]
    by_cases h : sliceCarry w = 1
    · rw [if_pos h, if_pos h, smul_neg, ← natCast_zsmul, ← neg_smul]
    · rw [if_neg h, if_neg h, natCast_zsmul]
  have h2 : ∀ k : ℕ, 2 ^ (c * k) • (wDigit (windowWord c K t k) • pt)
      = ((2 : ℤ) ^ (c * k) * wDigit (windowWord c K t k)) • pt := by
    intro k
    rw [← natCast_zsmul (wDigit (windowWord c K t k) • pt) (2 ^ (c * k)),
      smul_smul]
    congr 2
    push_cast
    ring
  rw [Finset.sum_congr rfl fun k _ => by rw [h1, h2]]
  rw [← Finset.sum_smul]
  congr 1
  have hlen : (sliceWindows c K t).length = K := sliceWindowsAux_length c t K 0 0
  rw [← recode_eq hc1 hc2 K t ht, digitSum_eq_indexed, hlen]
  rfl

theorem msmModel_correct {c : ℕ} (hc1 : 1 ≤ c) (hc2 : c ≤ 31) (K L : ℕ)
    (hL : 2 ^ (c - 1) ≤ L) (halves : List (ℕ × P))
    (hbound : ∀ tp ∈ halves, tp.1 < 2 ^ (c * K - 1)) :
    msmModel c K L halves = (halves.map fun tp => (tp.1 : ℤ) • tp.2).sum := by
  rw [msmModel, hornerCombine_eq]
  have hlen : ((List.range K).map fun k =>
      columnSum c K L (maxBucketSize c K L halves) halves k).length = K := by
    simp
  rw [hlen]
  have hstep1 : ∀ k ∈ Finset.range K,
      2 ^ (c * k) • ((List.range K).map fun k =>
          columnSum c K L (maxBucketSize c K L halves) halves k).getD k 0
        = (halves.map fun tp =>
            2 ^ (c * k) • (sliceLabel (windowWord c K tp.1 k)
              • signedPoint (windowWord c K tp.1 k) tp.2)).sum := by
    intro k hkr
    have hk : k < K := Finset.mem_range.mp hkr
    rw [getD_map_range hk, columnSum_eq K L halves hk,
      fiber_sum hc1 hc2 K L hL halves k, List.smul_sum, List.map_map]
    rfl
  rw [Finset.sum_congr rfl hstep1, sum_map_exchange]
  exact congrArg List.sum (List.map_congr_left fun tp htp =>
    perHalf_digit hc1 hc2 K tp.1 tp.2 (hbound tp htp))

theorem glv_pair_eq (lam q : ℕ) (s s0 s1 : ℕ) (n0 n1 : Bool) (pt ept : P)
    (hendo : ept = (lam : ℤ) • pt) (htor : (q : ℤ) • pt = 0)
    (hmod : (s : ℤ) ≡ (if n0 then -1 else 1) * s0
        + lam * ((if n1 then -1 else 1) * s1) [ZMOD (q : ℤ)]) :
    (s0 : ℤ) • (if n0 then -pt else pt)
        + (s1 : ℤ) • (if n1 then -ept else ept)
      = (s : ℤ) • pt := by
  subst hendo
  obtain ⟨mm, hmm⟩ := Int.ModEq.dvd hmod
  have hb : (if n0 then (-1 : ℤ) else 1) * s0
      + lam * ((if n1 then (-1 : ℤ) else 1) * s1) = s + q * mm := by
    rw [← hmm]
    ring
  have hif0 : (if n0 then -pt else pt)
      = (if n0 then (-1 : ℤ) else 1) • pt := by
    cases n0 <;> simp
  have hif1 : (if n1 then -((lam : ℤ) • pt) else (lam : ℤ) • pt)
      = (if n1 then (-1 : ℤ) else 1) • ((lam : ℤ) • pt) := by
    cases n1 <;> simp
  have hmain : (s0 : ℤ) • (if n0 then -pt else pt)
      + (s1 : ℤ) • (if n1 then -((lam : ℤ) • pt) else (lam : ℤ) • pt)
        = ((if n0 then (-1 : ℤ) else 1) * s0
          + lam * ((if n1 then (-1 : ℤ) else 1) * s1)) • pt := by
    rw [hif0, hif1]
    simp only [smul_smul]
    rw [← add_smul]
    congr 1
    cases n0 <;> cases n1 <;> simp <;> ring
  rw [hmain, hb, add_smul, mul_comm (q : ℤ) mm, mul_smul, htor, smul_zero,
    add_zero]

theorem glv_sum_eq {c : ℕ} (K : ℕ) (lam q : ℕ)
    (dec : ℕ → ℕ × ℕ × Bool × Bool) (endo : P → P) :
    ∀ inputs : List (ℕ × P),
      (∀ sg ∈ inputs,
        (dec sg.1).1 < 2 ^ (c * K - 1) ∧ (dec sg.1).2.1 < 2 ^ (c * K - 1) ∧
          (sg.1 : ℤ) ≡ (if (dec sg.1).2.2.1 then -1 else 1) * (dec sg.1).1
            + lam * ((if (dec sg.1).2.2.2 then -1 else 1) * (dec sg.1).2.1)
            [ZMOD (q : ℤ)]) →
      (∀ sg ∈ inputs, endo sg.2 = (lam : ℤ) • sg.2) →
      (∀ sg ∈ inputs, (q : ℤ) • sg.2 = 0) →
      (∀ tp ∈ glvHalves dec endo inputs, tp.1 < 2 ^ (c * K - 1)) ∧
        ((glvHalves dec endo inputs).map fun tp => (tp.1 : ℤ) • tp.2).sum
          = (inputs.map fun sg => (sg.1 : ℤ) • sg.2).sum := by
  intro inputs
  induction inputs with
  | nil =>
    intro _ _ _
    exact ⟨by intro tp htp; simp [glvHalves] at htp, by simp [glvHalves]⟩
  | cons sg rest ih =>
    intro hdec hendo htor
    have hdecs := hdec sg (List.mem_cons_self sg rest)
    obtain ⟨ihb, ihs⟩ := ih
      (fun x hx => hdec x (List.mem_cons_of_mem _ hx))
      (fun x hx => hendo x (List.mem_cons_of_mem _ hx))
      (fun x hx => htor x (List.mem_cons_of_mem _ hx))
    have hglv : glvHalves dec endo (sg :: rest)
        = ((dec sg.1).1, if (dec sg.1).2.2.1 then -sg.2 else sg.2) ::
          ((dec sg.1).2.1,
            if (dec sg.1).2.2.2 then -(endo sg.2) else endo sg.2) ::
          glvHalves dec endo rest := rfl
    constructor
    · intro tp htp
      rw [hglv] at htp
      rcases List.mem_cons.mp htp with rfl | htp
      · exact hdecs.1
      rcases List.mem_cons.mp htp with rfl | htp
      · exact hdecs.2.1
      · exact ihb tp htp
    · rw [hglv, List.map_cons, List.map_cons, List.sum_cons, List.sum_cons,
        ihs, List.map_cons, List.sum_cons, ← add_assoc]
      congr 1
      exact glv_pair_eq lam q sg.1 (dec sg.1).1 (dec sg.1).2.1
        (dec sg.1).2.2.1 (dec sg.1).2.2.2 sg.2 (endo sg.2)
        (hendo sg (List.mem_cons_self sg rest))
        (htor sg (List.mem_cons_self sg rest)) hdecs.2.2

/-- C1: the MSM pipeline computes `Σ sᵢ • Gᵢ`. Over any additive commutative
group of curve points, for any window size `c ∈ [1, 31]`, window count `K`
and bucket count `L ≥ 2^(c-1)` (in `msm`, `K = ⌈(maxBits+1)/c⌉` and
`L = 2^(c-1)`, so half scalars of at most `maxBits` bits satisfy
`s0, s1 < 2^(cK-1)`), and any GLV decomposition satisfying its defining
congruence mod the `q`-torsion of the input points with
`endo = λ`-multiplication, the pipeline — signed slicing, counting-sort
bucketing, pairing-tree accumulation, triangle/row column reduction and
Horner combination — returns the group sum `Σ sᵢ • Gᵢ`. -/
theorem msm_glv_correct {c : ℕ} (hc1 : 1 ≤ c) (hc2 : c ≤ 31) (K L : ℕ)
    (hL : 2 ^ (c - 1) ≤ L) (lam q : ℕ)
    (dec : ℕ → ℕ × ℕ × Bool × Bool) (endo : P → P)
    (inputs : List (ℕ × P))
    (hdec : ∀ sg ∈ inputs,
      (dec sg.1).1 < 2 ^ (c * K - 1) ∧ (dec sg.1).2.1 < 2 ^ (c * K - 1) ∧
        (sg.1 : ℤ) ≡ (if (dec sg.1).2.2.1 then -1 else 1) * (dec sg.1).1
          + lam * ((if (dec sg.1).2.2.2 then -1 else 1) * (dec sg.1).2.1)
          [ZMOD (q : ℤ)])
    (hendo : ∀ sg ∈ inputs, endo sg.2 = (lam : ℤ) • sg.2)
    (htor : ∀ sg ∈ inputs, (q : ℤ) • sg.2 = 0) :
    msmModel c K L (glvHalves dec endo inputs)
      = (inputs.map fun sg => (sg.1 : ℤ) • sg.2).sum := by
  obtain ⟨hb, hs⟩ := glv_sum_eq K lam q dec endo inputs hdec hendo htor
  rw [msmModel_correct hc1 hc2 K L hL _ hb, hs]


instance : Fact (Nat.Prime 11) := ⟨by norm_num⟩

/-- Witness for `msm_glv_correct`: two scalar/point pairs over `ZMod 11`
with the trivial decomposition `s ↦ (s, 0, +, +)` and identity endomorphism
(`λ = 1`), window size `c = 3`, `K = 2`, `L = 4`; the pipeline output equals
`3 • 2 + 5 • 4 = 4` in `ZMod 11`. -/
theorem msm_glv_correct_witness :
    ((1 ≤ 3 ∧ 3 ≤ 31 ∧ 2 ^ (3 - 1) ≤ 4) ∧
      (∀ sg ∈ [((3 : ℕ), (2 : ZMod 11)), (5, 4)],
        ((fun s => (s, 0, false, false)) sg.1).1 < 2 ^ (3 * 2 - 1) ∧
        ((fun s => (s, 0, false, false)) sg.1).2.1 < 2 ^ (3 * 2 - 1) ∧
          (sg.1 : ℤ) ≡ (if ((fun s : ℕ => (s, 0, false, false)) sg.1).2.2.1
              then -1 else 1) * ((fun s : ℕ => (s, 0, false, false)) sg.1).1
            + (1 : ℕ) * ((if ((fun s : ℕ => (s, 0, false, false)) sg.1).2.2.2
              then -1 else 1) * ((fun s : ℕ => (s, 0, false, false)) sg.1).2.1)
            [ZMOD ((11 : ℕ) : ℤ)]) ∧
      (∀ sg ∈ [((3 : ℕ), (2 : ZMod 11)), (5, 4)],
        (fun x : ZMod 11 => x) sg.2 = ((1 : ℕ) : ℤ) • sg.2) ∧
      (∀ sg ∈ [((3 : ℕ), (2 : ZMod 11)), (5, 4)],
        ((11 : ℕ) : ℤ) • sg.2 = 0)) ∧
      msmModel 3 2 4 (glvHalves (fun s => (s, 0, false, false))
          (fun x : ZMod 11 => x) [(3, 2), (5, 4)])
        = ([((3 : ℕ), (2 : ZMod 11)), (5, 4)].map
            fun sg => (sg.1 : ℤ) • sg.2).sum :=
  ⟨⟨⟨by decide, by decide, by decide⟩, by decide, by decide, by decide⟩,
    msm_glv_correct (by decide) (by decide) 2 4 (by decide) 1 11
      (fun s => (s, 0, false, false)) (fun x => x) [(3, 2), (5, 4)]
      (by decide) (by decide) (by decide)⟩

theorem passLogAux_flag :
    ∀ fuel m maxB (f : Bool), ∀ e ∈ passLogAux fuel m maxB f, e.2 = f := by
  intro fuel
  induction fuel with
  | zero => intro m maxB f e he; simp [passLogAux] at he
  | succ fuel ih =>
    intro m maxB f e he
    rw [passLogAux] at he
    rcases Nat.lt_or_ge m maxB with hm | hm
    · rw [if_pos hm] at he
      rcases List.mem_cons.mp he with rfl | he
      · rfl
      · exact ih (2 * m) maxB f e he
    · rw [if_neg (by omega)] at he
      simp at he

/-- C5 (corrected): the safe/unsafe choice of the bucket-accumulation stage
is the single per-MSM flag `useSafeAdditions`, applied uniformly to every
pass `m = 1, 2, 4, …` — there is no per-pass distinction, and the default
(`useSafeAdditions = true`) uses the safe `batchAdd` for every pass,
including the first. -/
theorem msmPassFlag_uniform (useSafe : Bool) (maxB : ℕ) :
    ∀ e ∈ msmAccumPassLog useSafe maxB, e.2 = useSafe := by
  intro e he
  exact passLogAux_flag maxB 1 maxB useSafe e he

/-- Witness for `msmPassFlag_uniform`: with `maxBucketSize = 3` the schedule
is `[(1, f), (2, f)]`; the entry `(2, true)` of the default run carries the
flag. -/
theorem msmPassFlag_uniform_witness :
    ((2, true) ∈ msmAccumPassLog true 3) ∧ ((2 : ℕ), true).2 = true :=
  ⟨by decide, msmPassFlag_uniform true 3 (2, true) (by decide)⟩

/-- C5 (counterexample to the claimed default): with the default
`useSafeAdditions = true`, the first accumulation pass (`m = 1`) calls the
*safe* `batchAdd`, not the unsafe one — the claimed default (unsafe for the
first pass) does not match the code, whose default is safe everywhere, with
`msmUnsafe` flipping the single flag for all passes at once. -/
theorem msmDefault_firstPass_safe :
    (msmAccumPassLog true 3).getD 0 (0, false) = (1, true) := by decide

end MsmPipeline
